import Mathlib

/-!
Verification development for the OpenEnsembles repository.

This file gives a shallow embedding of the numeric core of
`src/validation.py` (internal cluster-validity indices) and of the
bookkeeping layer of `src/openensembles.py` (the `cluster` and
`validation` classes), and proves or refutes the specification claims
about them.

Modelling conventions:
* numpy data matrices are `List (List ℝ)` (rows of features); machine
  floats are modelled by real numbers;
* label vectors are `List ℕ`;
* Python dictionaries are association lists (`List (String × _)`) in
  insertion order;
* a Python method that can raise is embedded as an `Except String _`
  value, paired with the post-call object state whenever the claim under
  study is about mutation of that state;
* `scipy.spatial.distance.pdist` is embedded over the standard condensed
  ordering of index pairs (`pairIdx`).
-/

namespace OpenEnsembles

noncomputable section

/-- Row-major data matrix, as produced by `numpy.asarray` on a dataframe. -/
abbrev Mat := List (List ℝ)

/-- Sum of coordinatewise squared differences of two feature vectors. -/
def sqDiffSum (a b : List ℝ) : ℝ :=
  (List.zipWith (fun x y => (x - y) ^ 2) a b).sum

/-- Embedding of `scipy.spatial.distance.euclidean`. -/
def euclidean (a b : List ℝ) : ℝ :=
  Real.sqrt (sqDiffSum a b)

/-- Embedding of `[t for t, x in enumerate(self.classLabel) if x == i]`. -/
def clusterIndices (labels : List ℕ) (i : ℕ) : List ℕ :=
  (labels.enum.filter (fun tx => tx.2 == i)).map Prod.fst

/-- Embedding of the numpy fancy-indexing read `self.dataMatrix[indices,:]`
(which copies the selected rows). -/
def selectRows (data : Mat) (idx : List ℕ) : Mat :=
  idx.map (fun t => data.getD t [])

/-- Coordinatewise sum of a list of rows (helper for `numpy.mean(_, 0)`). -/
def vecTotal : Mat → List ℝ
  | [] => []
  | r :: rs => rs.foldl (fun a b => List.zipWith (· + ·) a b) r

/-- Embedding of `numpy.mean(m, 0)`: the columnwise mean vector. -/
def mean0 (m : Mat) : List ℝ :=
  (vecTotal m).map (fun s => s / (m.length : ℝ))

/-- Embedding of `numpy.mean(v)` for a 1-d vector. -/
def mean1 (v : List ℝ) : ℝ :=
  v.sum / (v.length : ℝ)

/-- Number of distinct labels: embedding of `len(np.unique(labels))`,
the cluster count used by `Ball_Hall`. -/
def distinctCount (labels : List ℕ) : ℕ :=
  labels.dedup.length

/-- Cluster count `max(self.classLabel)+1` used by all the other
counting metrics (`Banfeld_Raferty`, `det_ratio`, `c_index`,
`ksq_detw_index`, `log_ss_ratio`, `McClain_Rao`, `PBM_index`,
`point_biserial`, `Ratkowsky_Lance`).  Python `max` is total here
because every call site has a nonempty label vector. -/
def numClusterMax (labels : List ℕ) : ℕ :=
  labels.foldl max 0 + 1

/-- Body of the cluster loop of `validation.Ball_Hall`: the mean squared
euclidean distance of the members of cluster `i` to the cluster centroid
(`sumDis / len(indices)` in the source). -/
def BallHallTerm (data : Mat) (labels : List ℕ) (i : ℕ) : ℝ :=
  let indices := clusterIndices labels i
  let clusterMember := selectRows data indices
  let clusterCenter := mean0 clusterMember
  (clusterMember.foldl
    (fun s member => s + euclidean member clusterCenter ^ 2) 0) /
    (indices.length : ℝ)

/-- Embedding of `validation.Ball_Hall`: mean over the clusters of the
mean squared euclidean distance of the members to the cluster centroid. -/
def Ball_Hall (data : Mat) (labels : List ℕ) : ℝ :=
  ((List.range (distinctCount labels)).foldl
    (fun acc i => acc + BallHallTerm data labels i) 0) /
    (distinctCount labels : ℝ)

/-- Condensed pair ordering used by `scipy.spatial.distance.pdist`:
all index pairs `(a, b)` with `a < b < n`, ordered first by `a` then `b`. -/
def pairIdx (n : ℕ) : List (ℕ × ℕ) :=
  (List.range n).flatMap (fun a =>
    ((List.range n).filter (fun b => a < b)).map (fun b => (a, b)))

/-- Embedding of `scipy.spatial.distance.pdist(m)` (euclidean metric). -/
def pdist (m : Mat) : List ℝ :=
  (pairIdx m.length).map (fun ab => euclidean (m.getD ab.1 []) (m.getD ab.2 []))

/-- Embedding of the matrix `temp` built by `Baker_Hubert_Gamma` and
`g_plus_index`: `temp[:,0] = classLabel`, second column zero. -/
def tempMat (labels : List ℕ) : Mat :=
  labels.map (fun l : ℕ => [(l : ℝ), 0])

/-- Contribution of the pair `(i, j)` of condensed indices to `splus` in
`Baker_Hubert_Gamma` (`vi = vecB[i]`, `vj = vecB[j]`, `di = pairDis[i]`,
`dj = pairDis[j]`). -/
def splusStep (vi vj di dj : ℝ) : ℕ :=
  (if 0 < vi ∧ vj = 0 then (if di < dj then 1 else 0) else 0) +
  (if vi = 0 ∧ 0 < vj then (if dj < di then 1 else 0) else 0)

/-- Contribution of the pair `(i, j)` of condensed indices to `sminus` in
`Baker_Hubert_Gamma`: the source compares `pairDis[i] > vecB[j]`
(respectively `pairDis[j] > vecB[i]`). -/
def sminusStep (vi vj di dj : ℝ) : ℕ :=
  (if 0 < vi ∧ vj = 0 then (if vj < di then 1 else 0) else 0) +
  (if vi = 0 ∧ 0 < vj then (if vi < dj then 1 else 0) else 0)

/-- The `splus` counter accumulated by the double loop
`for i in range(numPair-1): for j in range(i+1, numPair)` of
`validation.Baker_Hubert_Gamma`. -/
def BHGsplus (vecB pairDis : List ℝ) : ℕ :=
  (List.range (pairDis.length - 1)).foldl (fun s i =>
    ((List.range pairDis.length).filter (fun j => i < j)).foldl (fun s2 j =>
      s2 + splusStep (vecB.getD i 0) (vecB.getD j 0)
        (pairDis.getD i 0) (pairDis.getD j 0)) s) 0

/-- The `sminus` counter of the same double loop. -/
def BHGsminus (vecB pairDis : List ℝ) : ℕ :=
  (List.range (pairDis.length - 1)).foldl (fun s i =>
    ((List.range pairDis.length).filter (fun j => i < j)).foldl (fun s2 j =>
      s2 + sminusStep (vecB.getD i 0) (vecB.getD j 0)
        (pairDis.getD i 0) (pairDis.getD j 0)) s) 0

/-- The two discordance counters `(splus, sminus)` accumulated by the
double loop of `validation.Baker_Hubert_Gamma` over the condensed
distance vectors `pairDis = pdist(data)` and `vecB = pdist(temp)`. -/
def BHGcounts (data : Mat) (labels : List ℕ) : ℕ × ℕ :=
  (BHGsplus (pdist (tempMat labels)) (pdist data),
   BHGsminus (pdist (tempMat labels)) (pdist data))

/-- Embedding of `validation.Baker_Hubert_Gamma`.  The final statement
`(splus-sminus)/(splus+sminus)` is Python integer division of two `int`
counters, which raises `ZeroDivisionError` when `splus + sminus == 0`. -/
def Baker_Hubert_Gamma (data : Mat) (labels : List ℕ) : Except String ℝ :=
  let c := BHGcounts data labels
  if c.1 + c.2 = 0 then Except.error "ZeroDivisionError: division by zero"
  else Except.ok (((c.1 : ℝ) - (c.2 : ℝ)) / ((c.1 : ℝ) + (c.2 : ℝ)))

/-- The within-cluster pairwise distance total `sw` accumulated by the
cluster loops of `c_index`, `McClain_Rao` and `point_biserial`
(`sw = sw + sum(pdist(clusterMember))` over cluster ids `0..max(labels)`). -/
def swSum (data : Mat) (labels : List ℕ) : ℝ :=
  (List.range (numClusterMax labels)).foldl (fun s i =>
    s + (pdist (selectRows data (clusterIndices labels i))).sum) 0

/-- The within-cluster pair count `nw` accumulated by the same loops
(`nw = nw + len(pdist(clusterMember))`). -/
def nwSum (data : Mat) (labels : List ℕ) : ℕ :=
  (List.range (numClusterMax labels)).foldl (fun s i =>
    s + (pdist (selectRows data (clusterIndices labels i))).length) 0

/-- Embedding of `sum(list(itertools.chain(*distance.cdist(A, B))))`: the
total of all pairwise distances between the rows of `A` and of `B`. -/
def cdistSum (A B : Mat) : ℝ :=
  (A.map (fun a => (B.map (fun b => euclidean a b)).sum)).sum

/-- The between-cluster distance total `sb` accumulated by `McClain_Rao`
and `point_biserial` over cluster pairs `j > i`. -/
def sbSum (data : Mat) (labels : List ℕ) : ℝ :=
  (List.range (numClusterMax labels)).foldl (fun s i =>
    ((List.range (numClusterMax labels)).filter (fun j => i < j)).foldl
      (fun s2 j => s2 + cdistSum (selectRows data (clusterIndices labels i))
        (selectRows data (clusterIndices labels j))) s) 0

/-- Embedding of `validation.c_index`: `(sw-smin)/(smax-smin)` where
`smin`/`smax` total the `nw` smallest/largest pairwise distances of the
whole data set. -/
def c_index (data : Mat) (labels : List ℕ) : ℝ :=
  let sw := swSum data labels
  let nw := nwSum data labels
  let smin := (((pdist data).mergeSort (fun a b => a ≤ b)).take nw).sum
  let smax := (((pdist data).mergeSort (fun a b => b ≤ a)).take nw).sum
  (sw - smin) / (smax - smin)

/-- Embedding of `validation.McClain_Rao`: `nb*sw/(nw*sb)` with
`nb = numObj*(numObj-1)/2 - nw`. -/
def McClain_Rao (data : Mat) (labels : List ℕ) : ℝ :=
  let numObj := labels.length
  let sw := swSum data labels
  let nw := nwSum data labels
  let sb := sbSum data labels
  let nb := (numObj : ℝ) * ((numObj : ℝ) - 1) / 2 - (nw : ℝ)
  nb * sw / ((nw : ℝ) * sb)

/-- Embedding of `validation.point_biserial`:
`((sw/nw - sb/nb) * sqrt(nw*nb)) / nt` with `nt = numObj*(numObj-1)/2`
and `nb = nt - nw`. -/
def point_biserial (data : Mat) (labels : List ℕ) : ℝ :=
  let numObj := labels.length
  let nt := (numObj : ℝ) * ((numObj : ℝ) - 1) / 2
  let sw := swSum data labels
  let nw := nwSum data labels
  let sb := sbSum data labels
  let nb := nt - (nw : ℝ)
  ((sw / (nw : ℝ) - sb / nb) * Real.sqrt ((nw : ℝ) * nb)) / nt

/-- Statement of the spec for C6, written from the spec words: the mean over
the `K` clusters of the mean squared euclidean distance of cluster members
to their cluster centroid,
`(1/K) * sum over clusters i of (1/sizeOf C_i) * sum over x in C_i of
normSq (x - mean C_i)`. -/
def specBallHall (data : Mat) (labels : List ℕ) (K : ℕ) : ℝ :=
  (1 / (K : ℝ)) * ∑ i ∈ Finset.range K,
    (1 / ((clusterIndices labels i).length : ℝ)) *
      ((selectRows data (clusterIndices labels i)).map
        (fun x => sqDiffSum x (mean0 (selectRows data (clusterIndices labels i))))).sum

/-! Claim C2: the scatter-matrix metrics and mutation of `self.dataMatrix`. -/

/-- Column `j` of a row-major matrix. -/
def column (m : Mat) (j : ℕ) : List ℝ :=
  m.map (fun r => r.getD j 0)

/-- Embedding of the column-centering loops of `det_ratio` and
`ksq_detw_index` (`x[:,j] = x[:,j] - mean(x[:,j])` for each of the
`attributes` columns). -/
def colCenter (attributes : ℕ) (m : Mat) : Mat :=
  m.map (fun r => (List.range attributes).map
    (fun j => r.getD j 0 - mean1 (column m j)))

/-- Dot product of two vectors. -/
def dotVec (a b : List ℝ) : ℝ :=
  (List.zipWith (· * ·) a b).sum

/-- Embedding of `np.dot(np.transpose(x), x)`: the Gram matrix of the
columns of `x`. -/
def scatter (attributes : ℕ) (x : Mat) : Mat :=
  (List.range attributes).map (fun j =>
    (List.range attributes).map (fun k => dotVec (column x j) (column x k)))

/-- Entrywise sum of two matrices. -/
def matAdd (a b : Mat) : Mat :=
  List.zipWith (fun ra rb => List.zipWith (· + ·) ra rb) a b

/-- Embedding of `np.zeros((n, n))`. -/
def zerosM (n : ℕ) : Mat :=
  List.replicate n (List.replicate n 0)

/-- Embedding of `np.linalg.det` on a square row-major matrix. -/
def detL (m : Mat) : ℝ :=
  Matrix.det (Matrix.of (fun i j : Fin m.length => (m.getD i []).getD j 0))

/-- The pooled within-cluster scatter matrix `wg` accumulated by
`det_ratio` and `ksq_detw_index`: for each cluster id `0..max(labels)`,
the cluster rows are copied out (numpy fancy indexing), column-centered,
and their Gram matrix is added. -/
def wgMatrix (data : Mat) (labels : List ℕ) : Mat :=
  let attributes := (data.getD 0 []).length
  (List.range (numClusterMax labels)).foldl (fun wg i =>
      matAdd wg (scatter attributes
        (colCenter attributes (selectRows data (clusterIndices labels i)))))
    (zerosM attributes)

/-- Embedding of `validation.det_ratio`.  The source sets
`xData = self.dataMatrix` (an alias, not a copy) and then centers each
column of `xData` in place, so the stored data matrix itself is
column-centered by the call; the embedding returns the score together
with the post-call `self.dataMatrix`. -/
def det_ratio (data : Mat) (labels : List ℕ) : ℝ × Mat :=
  let attributes := (data.getD 0 []).length
  let wg := wgMatrix data labels
  let xData := colCenter attributes data
  (detL (scatter attributes xData) / detL wg, xData)

/-- Embedding of `validation.ksq_detw_index`.  Here the centering is
applied to `xCluster = clusterMember`, which aliases the fancy-indexing
copy `self.dataMatrix[indices,:]`, so the stored data matrix is not
touched: the post-call `self.dataMatrix` is `data` itself. -/
def ksq_detw_index (data : Mat) (labels : List ℕ) : ℝ × Mat :=
  ((numClusterMax labels : ℝ) ^ 2 * detL (wgMatrix data labels), data)

/-- Embedding of `validation.log_det_ratio`, which calls `det_ratio` and
therefore inherits its mutation of the stored data matrix. -/
def log_det_ratio (data : Mat) (labels : List ℕ) : ℝ × Mat :=
  let r := det_ratio data labels
  ((labels.length : ℝ) * Real.log r.1, r.2)

/-! Embedding of the bookkeeping layer of `src/openensembles.py`. -/

/-- Values stored in the per-solution parameter dictionaries (`K`,
`linkage`, `threshold`, ... are ints or strings in the source). -/
inductive PVal where
  | pint (n : ℤ)
  | pstr (s : String)
deriving DecidableEq

/-- Embedding of `numpy.unique` on an integer vector: sorted distinct values. -/
def npUnique (l : List ℕ) : List ℕ :=
  l.dedup.mergeSort (fun a b => a ≤ b)

/-- State of an `openensembles.cluster` object: the shared data object
(its `D` dictionary) and the five per-solution dictionaries, each an
association list in insertion order. -/
structure ClusterState where
  dataObj : List (String × Mat)
  labels : List (String × List ℕ)
  data_source : List (String × String)
  params : List (String × List (String × PVal))
  clusterNumbers : List (String × List ℕ)
  algorithms : List (String × String)

/-- Modelled from the spec: `finishing.mixture_model(parg, N, nEnsCluster,
iterations)` followed by `emProcess()`, from the repository file
`finishing.py` which is not under `src/`.  The spec says "Must support
K≥2; fails with `InputError` for K<2 or ensemble size <2", so the model
fails for `nEnsCluster < 2`; the EM labelling itself is randomly
initialized and left unspecified by the spec, so it is abstracted by the
function argument `em`. -/
def finishMixtureModel (em : List (List ℕ) → ℕ → ℕ → ℕ → List ℕ)
    (parg : List (List ℕ)) (N nEnsCluster iterations : ℕ) :
    Except String (List ℕ) :=
  if nEnsCluster < 2 then
    Except.error "InputError: mixture_model requires K of at least 2"
  else Except.ok (em parg N nEnsCluster iterations)

/-- Embedding of `cluster.mixture_model(K, iterations)`: checks the
ensemble size, hands the stacked label vectors to the finishing code and
wraps the result into a fresh cluster object sharing `dataObj`.  A raise
is an `Except.error`, in which case no new cluster object is produced. -/
def mixture_model (em : List (List ℕ) → ℕ → ℕ → ℕ → List ℕ)
    (st : ClusterState) (K iterations : ℕ) : Except String ClusterState :=
  if st.params.length < 2 then
    Except.error "Mixture Model is a finsihing technique for an ensemble, the cluster object must contain more than one solution"
  else
    let N := ((st.dataObj.lookup "parent").getD []).length
    let parg := st.labels.map (fun p => p.2)
    match finishMixtureModel em parg N K iterations with
    | Except.error e => Except.error e
    | Except.ok lab =>
      Except.ok
        { dataObj := st.dataObj
          labels := [("mixture_model", lab)]
          data_source := [("mixture_model", "parent")]
          params := [("mixture_model",
            [("iterations", PVal.pint (iterations : ℤ)), ("K", PVal.pint (K : ℤ))])]
          clusterNumbers := [("mixture_model", npUnique lab)]
          algorithms := [("mixture_model", "mixture_model")] }

/-- State of an `openensembles.validation` object: the `D` dictionary of
its data object, the `labels` dictionary of its cluster object, and the
four result dictionaries. -/
structure ValState where
  D : List (String × Mat)
  labels : List (String × List ℕ)
  validation : List (String × ℝ)
  source_name : List (String × String)
  cluster_name : List (String × String)
  description : List (String × String)

/-- The registry built by `validation_metrics_available()` through
reflection (`dir(self)`): the callable metric methods, in `dir`'s sorted
order. -/
def FCN_DICT : List String :=
  ["Baker_Hubert_Gamma", "Ball_Hall", "Banfeld_Raferty", "McClain_Rao",
   "PBM_index", "Ratkowsky_Lance", "c_index", "det_ratio", "g_plus_index",
   "ksq_detw_index", "log_det_ratio", "log_ss_ratio", "point_biserial",
   "silhouette"]

/-- Composite key `"%s_%s_%s" % (validation_name, source_name, cluster_name)`
used by `validation.calculate`. -/
def calcKey (validation_name source_name cluster_name : String) : String :=
  validation_name ++ "_" ++ source_name ++ "_" ++ cluster_name

/-- Embedding of `validation.calculate(validation_name, cluster_name,
source_name)`.  The dynamic dispatch `getattr(v, validation_name)()` is
abstracted by `metricEval`, which yields the score and description of the
named metric on the selected matrix and labels.  The result pairs the
Python return value (or the raised error) with the post-call object
state, so that the claims about unchanged dictionaries are explicit. -/
def calculate (metricEval : String → Mat → List ℕ → ℝ × String)
    (v : ValState) (validation_name cluster_name source_name : String) :
    Except String (Option String) × ValState :=
  let output_name := calcKey validation_name source_name cluster_name
  if (v.validation.lookup output_name).isSome then
    (Except.ok none, v)
  else if (v.D.lookup source_name).isNone then
    (Except.error ("ERROR: the source you requested for validation does not exist by that name " ++ source_name), v)
  else if (v.labels.lookup cluster_name).isNone then
    (Except.error ("ERROR: the clustering solution you requested for validation does not exist by the name " ++ source_name), v)
  else if validation_name ∉ FCN_DICT then
    (Except.error ("The validation metric you requested does not exist, currently the following are supported " ++ String.intercalate ", " FCN_DICT), v)
  else
    let r := metricEval validation_name ((v.D.lookup source_name).getD [])
      ((v.labels.lookup cluster_name).getD [])
    (Except.ok (some output_name),
     { v with validation := (output_name, r.1) :: v.validation,
              description := (output_name, r.2) :: v.description,
              source_name := (output_name, source_name) :: v.source_name,
              cluster_name := (output_name, cluster_name) :: v.cluster_name })

/-- One step of the parameter-search loop of `cluster.search_field`: the
accumulator carries `(names, paramFound)`. -/
def searchStep (field : String) (value : PVal)
    (acc : List String × Bool) (np : String × List (String × PVal)) :
    List String × Bool :=
  match np.2.lookup field with
  | none => acc
  | some pv => ((if pv == value then acc.1 ++ [np.1] else acc.1), true)

/-- Embedding of `cluster.search_field(field, value)`.  Heterogeneous
Python comparisons against strings and ints are embedded by tagging with
`PVal`. -/
def search_field (st : ClusterState) (field : String) (value : PVal) :
    Except String (List String) :=
  if field = "data_source" then
    Except.ok ((st.data_source.filter
      (fun nv => PVal.pstr nv.2 == value)).map (fun nv => nv.1))
  else if field = "algorithm" then
    Except.ok ((st.algorithms.filter
      (fun nv => PVal.pstr nv.2 == value)).map (fun nv => nv.1))
  else if field = "clusterNumber" then
    Except.ok ((st.clusterNumbers.filter
      (fun nv => PVal.pint (nv.2.length : ℤ) == value)).map (fun nv => nv.1))
  else
    let r := st.params.foldl (searchStep field value) (([] : List String), false)
    if r.2 = false then
      Except.error ("Field " ++ field ++ " was not found in parameters of an clustering solutions")
    else Except.ok r.1

/-- Loop of `cluster.slice`: checks each requested name against the
existing solution names and copies its five dictionary entries into the
freshly created cluster object `c`; a missing name raises before any
further copying.  Dictionary reads `self.labels[name]` are total in the
loop because the name check has already passed. -/
def sliceLoop (st : ClusterState) (names_existing : List String) :
    List String → ClusterState → Except String ClusterState
  | [], c => Except.ok c
  | n :: rest, c =>
    if n ∈ names_existing then
      sliceLoop st names_existing rest
        { c with
          labels := c.labels ++ [(n, (st.labels.lookup n).getD [])],
          data_source := c.data_source ++ [(n, (st.data_source.lookup n).getD "")],
          params := c.params ++ [(n, (st.params.lookup n).getD [])],
          clusterNumbers := c.clusterNumbers ++ [(n, (st.clusterNumbers.lookup n).getD [])],
          algorithms := c.algorithms ++ [(n, (st.algorithms.lookup n).getD "")] }
    else
      Except.error ("ERROR: the source you requested for slicing does not exist in cluster object " ++ n)

/-- Embedding of `cluster.slice(names)`: builds a fresh cluster object on
the same data object and fills it from the requested names.  The result
pairs the returned object (or raised error) with the post-call receiver
state; the source writes only to the fresh object `c`, so the receiver is
returned unchanged. -/
def slice (st : ClusterState) (names : List String) :
    Except String ClusterState × ClusterState :=
  (sliceLoop st (st.labels.map (fun p => p.1)) names
    { dataObj := st.dataObj, labels := [], data_source := [], params := [],
      clusterNumbers := [], algorithms := [] }, st)

/-- Embedding of `validation.g_plus_index`.  Its double loop over the
condensed pairs is textually identical to the `sminus` loop of
`Baker_Hubert_Gamma`, so it is embedded by the same `BHGsminus`; the
final statement `2*sminus/(numPair*(numPair-1))` is Python integer
division and raises `ZeroDivisionError` when `numPair <= 1`. -/
def g_plus_index (data : Mat) (labels : List ℕ) : Except String ℝ :=
  let sminus := BHGsminus (pdist (tempMat labels)) (pdist data)
  let numPair := (pdist data).length
  if numPair * (numPair - 1) = 0 then
    Except.error "ZeroDivisionError: division by zero"
  else Except.ok (2 * (sminus : ℝ) / ((numPair : ℝ) * ((numPair : ℝ) - 1)))

/-- The between-group sum of squares `bgss` of `validation.log_ss_ratio`:
`bgss += len(indices) * euclidean(clusterCenter, dataCenter)**2`. -/
def lssBgss (data : Mat) (labels : List ℕ) : ℝ :=
  (List.range (numClusterMax labels)).foldl (fun s i =>
    s + ((clusterIndices labels i).length : ℝ) *
      euclidean (mean0 (selectRows data (clusterIndices labels i)))
        (mean0 data) ^ 2) 0

/-- The within-group sum of squares `wgss` of `validation.log_ss_ratio`. -/
def lssWgss (data : Mat) (labels : List ℕ) : ℝ :=
  (List.range (numClusterMax labels)).foldl (fun s i =>
    s + (selectRows data (clusterIndices labels i)).foldl
      (fun t member => t + euclidean member
        (mean0 (selectRows data (clusterIndices labels i))) ^ 2) 0) 0

/-- Embedding of `validation.log_ss_ratio`: `log(bgss/wgss)`. -/
def log_ss_ratio (data : Mat) (labels : List ℕ) : ℝ :=
  Real.log (lssBgss data labels / lssWgss data labels)

/-- The within-cluster distance total `ew` of `validation.PBM_index`
(distances, not squared). -/
def pbmEw (data : Mat) (labels : List ℕ) : ℝ :=
  (List.range (numClusterMax labels)).foldl (fun s i =>
    s + (selectRows data (clusterIndices labels i)).foldl
      (fun t member => t + euclidean member
        (mean0 (selectRows data (clusterIndices labels i)))) 0) 0

/-- The total distance to the data center `et` of `validation.PBM_index`. -/
def pbmEt (data : Mat) (labels : List ℕ) : ℝ :=
  (List.range (numClusterMax labels)).foldl (fun s i =>
    s + (selectRows data (clusterIndices labels i)).foldl
      (fun t member => t + euclidean member (mean0 data)) 0) 0

/-- The list `list_centerDis` of cluster-center distances to the data
center built by the cluster loop of `validation.PBM_index`. -/
def pbmCenterDis (data : Mat) (labels : List ℕ) : List ℝ :=
  (List.range (numClusterMax labels)).map (fun i =>
    euclidean (mean0 data) (mean0 (selectRows data (clusterIndices labels i))))

/-- Embedding of Python `max` on a nonempty list: a fold of `max` seeded
with the first element. -/
def pythonMax (l : List ℝ) : ℝ :=
  l.foldl max (l.getD 0 0)

/-- Embedding of `validation.PBM_index`:
`(et*db/(numCluster*ew))**2` with `db = max(list_centerDis)`. -/
def PBM_index (data : Mat) (labels : List ℕ) : ℝ :=
  (pbmEt data labels * pythonMax (pbmCenterDis data labels) /
    ((numClusterMax labels : ℝ) * pbmEw data labels)) ^ 2

/-- Embedding of `numpy.mean` on a 2-d array: the mean over all entries.
`Ratkowsky_Lance` applies it to the whole cluster-row block
(`centerCluster = np.mean(columnCluster)` in the source). -/
def meanAll (m : Mat) : ℝ :=
  ((m.map (fun r => r.sum)).sum) / (((m.map (fun r => r.length)).sum : ℕ) : ℝ)

/-- The per-attribute between-group sum `bgssj` of
`validation.Ratkowsky_Lance`. -/
def rlBgss (data : Mat) (labels : List ℕ) (columnCenter : ℝ) : ℝ :=
  (List.range (numClusterMax labels)).foldl (fun s j =>
    s + ((clusterIndices labels j).length : ℝ) *
      (meanAll (selectRows data (clusterIndices labels j)) - columnCenter) ^ 2) 0

/-- The per-attribute total sum of squares `tssj` of
`validation.Ratkowsky_Lance`. -/
def rlTss (v : List ℝ) (columnCenter : ℝ) : ℝ :=
  v.foldl (fun t member => t + (member - columnCenter) ^ 2) 0

/-- Embedding of `validation.Ratkowsky_Lance`:
`sqrt((sum(bgssj/tssj)/attributes)/numCluster)`. -/
def Ratkowsky_Lance (data : Mat) (labels : List ℕ) : ℝ :=
  let attributes := (data.getD 0 []).length
  let list_divide := (List.range attributes).map (fun i =>
    rlBgss data labels (mean1 (column data i)) /
      rlTss (column data i) (mean1 (column data i)))
  Real.sqrt ((list_divide.sum / (attributes : ℝ)) / (numClusterMax labels : ℝ))

/-- The within-cluster dispersion `sumDis` of `validation.Banfeld_Raferty`
for cluster `i`. -/
def banfeldSumDis (data : Mat) (labels : List ℕ) (i : ℕ) : ℝ :=
  (selectRows data (clusterIndices labels i)).foldl
    (fun s member => s + euclidean member
      (mean0 (selectRows data (clusterIndices labels i))) ^ 2) 0

/-- The increment `len(indices)*log(sumDis/len(indices))` of
`validation.Banfeld_Raferty`. -/
def banfeldTerm (data : Mat) (labels : List ℕ) (i : ℕ) : ℝ :=
  ((clusterIndices labels i).length : ℝ) *
    Real.log (banfeldSumDis data labels i / ((clusterIndices labels i).length : ℝ))

/-- One iteration of the cluster loop of `validation.Banfeld_Raferty`: a
degenerate cluster only warns, a regular one adds to `sumTotal` and
assigns `self.validation = sumTotal` (the assignment sits inside the
`else` branch in the source). -/
def banfeldStep (data : Mat) (labels : List ℕ) (acc : ℝ × Option ℝ) (i : ℕ) :
    ℝ × Option ℝ :=
  if banfeldSumDis data labels i / ((clusterIndices labels i).length : ℝ) ≤ 0 then
    acc
  else
    (acc.1 + banfeldTerm data labels i, some (acc.1 + banfeldTerm data labels i))

/-- Embedding of `validation.Banfeld_Raferty`; `none` is the initial
`np.nan` kept when every cluster is degenerate. -/
def Banfeld_Raferty (data : Mat) (labels : List ℕ) : Option ℝ :=
  ((List.range (numClusterMax labels)).foldl (banfeldStep data labels) (0, none)).2

/-! Theorems: claim proofs, their witnesses and supporting lemmas. -/

/-- C1: the spec demands that a degenerate case inside a validation metric
yields NaN plus a warning and never raises.  The code violates this: on a
two-point data set split into two singleton clusters there are no
comparable pairs, `splus + sminus = 0`, and `Baker_Hubert_Gamma` raises
`ZeroDivisionError` instead of returning NaN. -/
theorem C1_baker_hubert_gamma_raises_on_degenerate_input :
    Baker_Hubert_Gamma [[0], [1]] [0, 1] =
      Except.error "ZeroDivisionError: division by zero" := by
  have hpair : pairIdx 2 = [(0, 1)] := by decide
  simp [Baker_Hubert_Gamma, BHGcounts, BHGsplus, BHGsminus, pdist, hpair]

/-! Generic lemmas about the accumulator loops of the metrics. -/

/-- A `foldl` that only adds `f x` at each step is the sum of the mapped list. -/
theorem foldl_add_eq {α : Type*} {M : Type*} [AddCommMonoid M] (f : α → M) :
    ∀ (l : List α) (c : M), l.foldl (fun a x => a + f x) c = c + (l.map f).sum
  | [], c => by simp
  | x :: t, c => by
    simp only [List.foldl_cons, List.map_cons, List.sum_cons]
    rw [foldl_add_eq f t (c + f x), add_assoc]

/-- An accumulator loop over `range n` is a `Finset.range` sum. -/
theorem range_foldl_add_eq_sum {M : Type*} [AddCommMonoid M] (g : ℕ → M) (n : ℕ) :
    (List.range n).foldl (fun a i => a + g i) 0 = ∑ i ∈ Finset.range n, g i := by
  induction n with
  | zero => simp
  | succ n ih =>
    rw [List.range_succ, Finset.sum_range_succ, ← ih, List.foldl_append]
    simp

/-- The seed bounds a `foldl max` from below. -/
theorem le_foldl_max {α : Type*} [LinearOrder α] :
    ∀ (l : List α) (a : α), a ≤ l.foldl max a
  | [], _ => le_refl _
  | x :: t, a => le_trans (le_max_left a x) (le_foldl_max t (max a x))

/-- Every member bounds a `foldl max` from below. -/
theorem mem_le_foldl_max {α : Type*} [LinearOrder α] (a : α) {x : α} :
    ∀ {l : List α}, x ∈ l → x ≤ l.foldl max a
  | h :: t, hx => by
    rcases List.mem_cons.1 hx with rfl | hx
    · exact le_trans (le_max_right a x) (le_foldl_max t (max a x))
    · exact mem_le_foldl_max (max a h) hx

/-- A `foldl max` is a member of the list or the seed. -/
theorem foldl_max_mem {α : Type*} [LinearOrder α] :
    ∀ (l : List α) (a : α), l.foldl max a ∈ l ∨ l.foldl max a = a
  | [], _ => Or.inr rfl
  | h :: t, a => by
    rcases foldl_max_mem t (max a h) with hm | hm
    · exact Or.inl (List.mem_cons_of_mem h hm)
    · rcases max_choice a h with hc | hc
      · exact Or.inr (by rw [List.foldl_cons, hm, hc])
      · exact Or.inl (by rw [List.foldl_cons, hm, hc]; exact List.mem_cons_self h t)

/-- `len(np.unique(labels))` is the cardinality of the label set. -/
theorem distinctCount_eq_card (labels : List ℕ) :
    distinctCount labels = labels.toFinset.card :=
  (List.card_toFinset labels).symm

/-- On a label vector whose value set is exactly `0..K-1`, the
`max(labels)+1` convention recovers `K`. -/
theorem numClusterMax_of_contiguous {labels : List ℕ} {K : ℕ} (hK : 0 < K)
    (h : labels.toFinset = Finset.range K) : numClusterMax labels = K := by
  have hmem : ∀ x, x ∈ labels ↔ x < K := by
    intro x
    rw [← List.mem_toFinset, h, Finset.mem_range]
  have h1 : K - 1 ≤ labels.foldl max 0 :=
    mem_le_foldl_max 0 ((hmem _).2 (by omega))
  have h2 : labels.foldl max 0 ≤ K - 1 := by
    rcases foldl_max_mem labels 0 with hm | hm
    · have := (hmem _).1 hm
      omega
    · omega
  unfold numClusterMax
  omega

/-- C3: for a label vector with values exactly `0..K-1`, the cluster count
`max(labels)+1` used by `Banfeld_Raferty`, `det_ratio`, `c_index`,
`ksq_detw_index`, `log_ss_ratio`, `McClain_Rao`, `PBM_index`,
`point_biserial` and `Ratkowsky_Lance` (embedded as `numClusterMax`)
coincides with the number of distinct labels (`distinctCount`, the count
`len(np.unique(labels))` used by `Ball_Hall`); for a non-contiguous label
set `max(labels)+1` strictly exceeds the number of distinct labels. -/
theorem C3_cluster_count_convention (labels : List ℕ) (K : ℕ) (hK : 0 < K) :
    (labels.toFinset = Finset.range K →
      numClusterMax labels = K ∧ distinctCount labels = K) ∧
    (labels.toFinset ≠ Finset.range (distinctCount labels) →
      distinctCount labels < numClusterMax labels) := by
  constructor
  · intro h
    refine ⟨numClusterMax_of_contiguous hK h, ?_⟩
    rw [distinctCount_eq_card, h, Finset.card_range]
  · intro h
    have hsub : labels.toFinset ⊆ Finset.range (numClusterMax labels) := by
      intro x hx
      rw [Finset.mem_range]
      have hle : x ≤ labels.foldl max 0 := mem_le_foldl_max 0 (List.mem_toFinset.1 hx)
      unfold numClusterMax
      omega
    have hle : distinctCount labels ≤ numClusterMax labels := by
      rw [distinctCount_eq_card]
      simpa using Finset.card_le_card hsub
    rcases lt_or_eq_of_le hle with hlt | heq
    · exact hlt
    · exfalso
      apply h
      have hfull : labels.toFinset = Finset.range (numClusterMax labels) :=
        Finset.eq_of_subset_of_card_le hsub
          (by rw [Finset.card_range, ← distinctCount_eq_card, heq])
      rw [hfull, heq]

/-- Witness for C3 at the concrete contiguous label vector `[0, 1, 0]`. -/
theorem C3_cluster_count_convention_witness :
    ((([0, 1, 0] : List ℕ).toFinset = Finset.range 2 →
      numClusterMax [0, 1, 0] = 2 ∧ distinctCount [0, 1, 0] = 2) ∧
    (([0, 1, 0] : List ℕ).toFinset ≠ Finset.range (distinctCount [0, 1, 0]) →
      distinctCount [0, 1, 0] < numClusterMax [0, 1, 0])) :=
  C3_cluster_count_convention [0, 1, 0] 2 (by decide)

/-! Claim C6: the Ball-Hall formula. -/

/-- Sums of coordinatewise squares are nonnegative. -/
theorem sqDiffSum_nonneg : ∀ (a b : List ℝ), 0 ≤ sqDiffSum a b
  | [], _ => by simp [sqDiffSum]
  | _ :: _, [] => by simp [sqDiffSum]
  | x :: a, y :: b => by
    have h := sqDiffSum_nonneg a b
    simp only [sqDiffSum, List.zipWith_cons_cons, List.sum_cons] at h ⊢
    exact add_nonneg (sq_nonneg _) h

/-- Squaring the embedded `scipy` euclidean distance recovers the sum of
coordinatewise squared differences. -/
theorem euclidean_sq (a b : List ℝ) : euclidean a b ^ 2 = sqDiffSum a b :=
  Real.sq_sqrt (sqDiffSum_nonneg a b)

/-- C6: on a label vector whose values are exactly `0..K-1`, the embedded
`validation.Ball_Hall` computes exactly the spec formula
`(1/K) * Σ_i (1/sizeOf C_i) * Σ_{x ∈ C_i} dist(x, mean C_i)^2`. -/
theorem C6_ball_hall_formula (data : Mat) (labels : List ℕ) (K : ℕ) (hK : 0 < K)
    (h : labels.toFinset = Finset.range K) :
    Ball_Hall data labels = specBallHall data labels K := by
  have hd : distinctCount labels = K := by
    rw [distinctCount_eq_card, h, Finset.card_range]
  have hterm : ∀ i ∈ Finset.range K, BallHallTerm data labels i =
      (1 / ((clusterIndices labels i).length : ℝ)) *
        ((selectRows data (clusterIndices labels i)).map
          (fun x => sqDiffSum x (mean0 (selectRows data (clusterIndices labels i))))).sum := by
    intro i _
    simp only [BallHallTerm]
    rw [foldl_add_eq, zero_add]
    have hfn : (fun member => euclidean member
          (mean0 (selectRows data (clusterIndices labels i))) ^ 2) =
        (fun x => sqDiffSum x (mean0 (selectRows data (clusterIndices labels i)))) :=
      funext (fun m => euclidean_sq m _)
    rw [hfn, one_div, inv_mul_eq_div]
  unfold Ball_Hall specBallHall
  rw [hd, range_foldl_add_eq_sum, Finset.sum_congr rfl hterm, one_div, inv_mul_eq_div]

/-- Witness for C6 at a concrete data set of two one-dimensional points in
two singleton clusters. -/
theorem C6_ball_hall_formula_witness :
    Ball_Hall [[0], [2]] [0, 1] = specBallHall [[0], [2]] [0, 1] 2 :=
  C6_ball_hall_formula [[0], [2]] [0, 1] 2 (by decide) (by decide)

/-- C2: the spec claims every validation metric leaves the data matrix
unchanged.  `det_ratio` violates this: on the matrix `[[0,0],[2,2]]` with
labels `[0,1]` the stored data matrix is column-centered in place through
the aliasing assignment `xData = self.dataMatrix`.  `ksq_detw_index`,
which centers only the fancy-indexing copy, does leave it unchanged. -/
theorem C2_det_ratio_mutates_data_matrix :
    (det_ratio [[0, 0], [2, 2]] [0, 1]).2 ≠ [[0, 0], [2, 2]] ∧
    (ksq_detw_index [[0, 0], [2, 2]] [0, 1]).2 = [[0, 0], [2, 2]] := by
  constructor
  · intro h
    have h1 := congrArg (fun l : Mat => (l.getD 0 []).getD 0 37) h
    simp only [det_ratio] at h1
    simp [colCenter, column, mean1, List.range_succ] at h1
  · rfl

/-- C4: `cluster.mixture_model` fails with an input error whenever `K < 2`
(check modelled from the spec, inside the missing `finishing.py`) or the
cluster object holds fewer than two solutions (`len(self.params) < 2` in
`src/openensembles.py`), and in that case no new cluster object is
produced (`Except.error` carries none). -/
theorem C4_mixture_model_input_errors
    (em : List (List ℕ) → ℕ → ℕ → ℕ → List ℕ) (st : ClusterState)
    (K iterations : ℕ) (h : K < 2 ∨ st.params.length < 2) :
    ∃ msg, mixture_model em st K iterations = Except.error msg := by
  unfold mixture_model
  by_cases hp : st.params.length < 2
  · rw [if_pos hp]
    exact ⟨_, rfl⟩
  · rcases h with hK | hp2
    · rw [if_neg hp]
      simp only [finishMixtureModel, if_pos hK]
      exact ⟨_, rfl⟩
    · exact absurd hp2 hp

/-- Witness for C4: a cluster object with no solutions and `K = 1`. -/
theorem C4_mixture_model_input_errors_witness :
    ∃ msg, mixture_model (fun _ _ _ _ => []) ⟨[], [], [], [], [], []⟩ 1 10 =
      Except.error msg :=
  C4_mixture_model_input_errors (fun _ _ _ _ => []) ⟨[], [], [], [], [], []⟩ 1 10
    (Or.inl (by decide))

/-- C7: when the requested result is not already cached and the data
source, the clustering solution or the metric name is invalid,
`validation.calculate` raises `ValueError` with the message of the first
failing check, and the object state (hence its `validation`,
`description`, `source_name` and `cluster_name` dictionaries) is
unchanged.  Note that the message for a missing clustering solution
interpolates `source_name`, exactly as the source does. -/
theorem C7_calculate_invalid_arguments
    (metricEval : String → Mat → List ℕ → ℝ × String) (v : ValState)
    (validation_name cluster_name source_name : String)
    (hnew : (v.validation.lookup
      (calcKey validation_name source_name cluster_name)).isSome = false) :
    ((v.D.lookup source_name).isNone = true →
      calculate metricEval v validation_name cluster_name source_name =
        (Except.error ("ERROR: the source you requested for validation does not exist by that name " ++ source_name), v)) ∧
    ((v.D.lookup source_name).isNone = false →
      (v.labels.lookup cluster_name).isNone = true →
      calculate metricEval v validation_name cluster_name source_name =
        (Except.error ("ERROR: the clustering solution you requested for validation does not exist by the name " ++ source_name), v)) ∧
    ((v.D.lookup source_name).isNone = false →
      (v.labels.lookup cluster_name).isNone = false →
      validation_name ∉ FCN_DICT →
      calculate metricEval v validation_name cluster_name source_name =
        (Except.error ("The validation metric you requested does not exist, currently the following are supported " ++ String.intercalate ", " FCN_DICT), v)) := by
  refine ⟨fun h1 => ?_, fun h1 h2 => ?_, fun h1 h2 h3 => ?_⟩ <;>
    simp [calculate, hnew, h1, *]

/-- Witness for C7 on an empty validation object. -/
theorem C7_calculate_invalid_arguments_witness :
    (((ValState.mk [] [] [] [] [] []).D.lookup "parent").isNone = true →
      calculate (fun _ _ _ => (0, "")) (ValState.mk [] [] [] [] [] [])
          "Ball_Hall" "kmeans" "parent" =
        (Except.error ("ERROR: the source you requested for validation does not exist by that name " ++ "parent"),
         ValState.mk [] [] [] [] [] [])) ∧
    (((ValState.mk [] [] [] [] [] []).D.lookup "parent").isNone = false →
      (((ValState.mk [] [] [] [] [] []).labels.lookup "kmeans").isNone = true →
      calculate (fun _ _ _ => (0, "")) (ValState.mk [] [] [] [] [] [])
          "Ball_Hall" "kmeans" "parent" =
        (Except.error ("ERROR: the clustering solution you requested for validation does not exist by the name " ++ "parent"),
         ValState.mk [] [] [] [] [] []))) ∧
    (((ValState.mk [] [] [] [] [] []).D.lookup "parent").isNone = false →
      ((ValState.mk [] [] [] [] [] []).labels.lookup "kmeans").isNone = false →
      "Ball_Hall" ∉ FCN_DICT →
      calculate (fun _ _ _ => (0, "")) (ValState.mk [] [] [] [] [] [])
          "Ball_Hall" "kmeans" "parent" =
        (Except.error ("The validation metric you requested does not exist, currently the following are supported " ++ String.intercalate ", " FCN_DICT),
         ValState.mk [] [] [] [] [] [])) :=
  C7_calculate_invalid_arguments (fun _ _ _ => (0, ""))
    (ValState.mk [] [] [] [] [] []) "Ball_Hall" "kmeans" "parent" (by rfl)

/-- C8: a successful `validation.calculate` stores score and description
under the composite key `validation_name_source_name_cluster_name` and
returns that key; a second call with the same triple is a no-op that
returns `None` and leaves all four result dictionaries unchanged. -/
theorem C8_calculate_success_and_caching
    (metricEval : String → Mat → List ℕ → ℝ × String) (v : ValState)
    (validation_name cluster_name source_name : String)
    (hnew : (v.validation.lookup
      (calcKey validation_name source_name cluster_name)).isSome = false)
    (hsrc : (v.D.lookup source_name).isNone = false)
    (hcl : (v.labels.lookup cluster_name).isNone = false)
    (hm : validation_name ∈ FCN_DICT) :
    ∃ v2 : ValState,
      calculate metricEval v validation_name cluster_name source_name =
        (Except.ok (some (calcKey validation_name source_name cluster_name)), v2) ∧
      v2.validation.lookup (calcKey validation_name source_name cluster_name) =
        some (metricEval validation_name ((v.D.lookup source_name).getD [])
          ((v.labels.lookup cluster_name).getD [])).1 ∧
      v2.description.lookup (calcKey validation_name source_name cluster_name) =
        some (metricEval validation_name ((v.D.lookup source_name).getD [])
          ((v.labels.lookup cluster_name).getD [])).2 ∧
      v2.source_name.lookup (calcKey validation_name source_name cluster_name) =
        some source_name ∧
      v2.cluster_name.lookup (calcKey validation_name source_name cluster_name) =
        some cluster_name ∧
      calculate metricEval v2 validation_name cluster_name source_name =
        (Except.ok none, v2) := by
  refine ⟨{ v with
      validation := (calcKey validation_name source_name cluster_name,
        (metricEval validation_name ((v.D.lookup source_name).getD [])
          ((v.labels.lookup cluster_name).getD [])).1) :: v.validation,
      description := (calcKey validation_name source_name cluster_name,
        (metricEval validation_name ((v.D.lookup source_name).getD [])
          ((v.labels.lookup cluster_name).getD [])).2) :: v.description,
      source_name := (calcKey validation_name source_name cluster_name,
        source_name) :: v.source_name,
      cluster_name := (calcKey validation_name source_name cluster_name,
        cluster_name) :: v.cluster_name }, ?_, ?_, ?_, ?_, ?_, ?_⟩
  · simp [calculate, hnew, hsrc, hcl, hm]
  · simp [List.lookup]
  · simp [List.lookup]
  · simp [List.lookup]
  · simp [List.lookup]
  · simp [calculate, List.lookup]

/-- Witness for C8: a validation object holding one data source and one
clustering solution, scored with `Ball_Hall`. -/
theorem C8_calculate_success_and_caching_witness :
    ∃ v2 : ValState,
      calculate (fun _ _ _ => (0, "d"))
          (ValState.mk [("parent", [])] [("km", [0])] [] [] [] [])
          "Ball_Hall" "km" "parent" =
        (Except.ok (some (calcKey "Ball_Hall" "parent" "km")), v2) ∧
      v2.validation.lookup (calcKey "Ball_Hall" "parent" "km") =
        some ((fun (_ : String) (_ : Mat) (_ : List ℕ) => ((0 : ℝ), "d")) "Ball_Hall"
          (((ValState.mk [("parent", [])] [("km", [0])] [] [] [] []).D.lookup "parent").getD [])
          (((ValState.mk [("parent", [])] [("km", [0])] [] [] [] []).labels.lookup "km").getD [])).1 ∧
      v2.description.lookup (calcKey "Ball_Hall" "parent" "km") =
        some ((fun (_ : String) (_ : Mat) (_ : List ℕ) => ((0 : ℝ), "d")) "Ball_Hall"
          (((ValState.mk [("parent", [])] [("km", [0])] [] [] [] []).D.lookup "parent").getD [])
          (((ValState.mk [("parent", [])] [("km", [0])] [] [] [] []).labels.lookup "km").getD [])).2 ∧
      v2.source_name.lookup (calcKey "Ball_Hall" "parent" "km") = some "parent" ∧
      v2.cluster_name.lookup (calcKey "Ball_Hall" "parent" "km") = some "km" ∧
      calculate (fun _ _ _ => (0, "d")) v2 "Ball_Hall" "km" "parent" =
        (Except.ok none, v2) :=
  C8_calculate_success_and_caching (fun _ _ _ => (0, "d"))
    (ValState.mk [("parent", [])] [("km", [0])] [] [] [] [])
    "Ball_Hall" "km" "parent" (by rfl) (by rfl) (by rfl) (by decide)

/-- Characterization of the parameter-search loop: it appends the names of
the solutions whose parameter `field` equals `value`, and raises the
`paramFound` flag exactly when some solution has the field. -/
theorem searchStep_foldl (field : String) (value : PVal) :
    ∀ (l : List (String × List (String × PVal))) (acc : List String) (b : Bool),
      l.foldl (searchStep field value) (acc, b) =
        (acc ++ (l.filter
            (fun np => np.2.lookup field == some value)).map (fun np => np.1),
         b || l.any (fun np => (np.2.lookup field).isSome))
  | [], acc, b => by simp
  | np :: t, acc, b => by
    rcases hl : np.2.lookup field with _ | pv
    · have := searchStep_foldl field value t acc b
      simp [searchStep, hl, this, List.filter_cons, List.any_cons]
    · by_cases hv : pv == value
      · have := searchStep_foldl field value t (acc ++ [np.1]) true
        simp [searchStep, hl, hv, this, List.filter_cons, List.any_cons]
      · have := searchStep_foldl field value t acc true
        simp [searchStep, hl, hv, this, List.filter_cons, List.any_cons]

/-- C9: for a field outside the three special cases, `cluster.search_field`
raises `ValueError` exactly when no stored solution has that field in its
parameter dictionary; otherwise it returns exactly the names of the
solutions whose stored value for the field equals the requested value. -/
theorem C9_search_field_parameters (st : ClusterState) (field : String)
    (value : PVal) (h1 : field ≠ "data_source") (h2 : field ≠ "algorithm")
    (h3 : field ≠ "clusterNumber") :
    (search_field st field value =
        Except.error ("Field " ++ field ++ " was not found in parameters of an clustering solutions")
      ↔ ∀ np ∈ st.params, np.2.lookup field = none) ∧
    ((∃ np ∈ st.params, (np.2.lookup field).isSome = true) →
      search_field st field value =
        Except.ok ((st.params.filter
          (fun np => np.2.lookup field == some value)).map (fun np => np.1))) := by
  have hfold := searchStep_foldl field value st.params [] false
  constructor
  · constructor
    · intro herr np hmem
      by_contra hne
      have hsome : (np.2.lookup field).isSome = true := by
        rcases hl : np.2.lookup field with _ | pv
        · exact absurd hl hne
        · rfl
      have hany : st.params.any (fun np => (np.2.lookup field).isSome) = true :=
        List.any_eq_true.2 ⟨np, hmem, hsome⟩
      rw [search_field, if_neg h1, if_neg h2, if_neg h3] at herr
      simp only [hfold, hany, Bool.false_or] at herr
      simp at herr
    · intro hall
      have hany : st.params.any (fun np => (np.2.lookup field).isSome) = false := by
        simp only [List.any_eq_false]
        intro np hmem
        simp [hall np hmem]
      rw [search_field, if_neg h1, if_neg h2, if_neg h3]
      simp only [hfold, hany, Bool.false_or]
      simp
  · intro hex
    have hany : st.params.any (fun np => (np.2.lookup field).isSome) = true := by
      rcases hex with ⟨np, hmem, hsome⟩
      exact List.any_eq_true.2 ⟨np, hmem, hsome⟩
    rw [search_field, if_neg h1, if_neg h2, if_neg h3]
    simp only [hfold, hany, Bool.false_or]
    simp

/-- Witness for C9: one solution whose parameters hold `K = 2`, searched
for `K = 2`. -/
theorem C9_search_field_parameters_witness :
    (search_field
        (ClusterState.mk [] [] [] [("s1", [("K", PVal.pint 2)])] [] [])
        "K" (PVal.pint 2) =
      Except.error ("Field " ++ "K" ++ " was not found in parameters of an clustering solutions")
      ↔ ∀ np ∈ (ClusterState.mk [] [] [] [("s1", [("K", PVal.pint 2)])] [] []).params,
          np.2.lookup "K" = none) ∧
    ((∃ np ∈ (ClusterState.mk [] [] [] [("s1", [("K", PVal.pint 2)])] [] []).params,
        (np.2.lookup "K").isSome = true) →
      search_field (ClusterState.mk [] [] [] [("s1", [("K", PVal.pint 2)])] [] [])
          "K" (PVal.pint 2) =
        Except.ok (((ClusterState.mk [] [] [] [("s1", [("K", PVal.pint 2)])] [] []).params.filter
          (fun np => np.2.lookup "K" == some (PVal.pint 2))).map (fun np => np.1))) :=
  C9_search_field_parameters
    (ClusterState.mk [] [] [] [("s1", [("K", PVal.pint 2)])] [] [])
    "K" (PVal.pint 2) (by decide) (by decide) (by decide)

/-- A key occurring among the keys of an association list has a `lookup`. -/
theorem lookup_isSome_of_mem_keys {β : Type*} :
    ∀ (l : List (String × β)) (n : String), n ∈ l.map (fun p => p.1) →
      (l.lookup n).isSome = true
  | p :: t, n, h => by
    rcases List.mem_cons.1 h with he | ht
    · simp [List.lookup, he.symm]
    · by_cases hn : n == p.1
      · simp [List.lookup, hn]
      · simp only [List.lookup, hn]
        exact lookup_isSome_of_mem_keys t n ht

/-- Looking a member key up in a list tabulating `f` yields `f` of the key. -/
theorem lookup_map_self {β : Type*} (f : String → β) :
    ∀ (ns : List String) (n : String), n ∈ ns →
      ((ns.map (fun m => (m, f m))).lookup n) = some (f n)
  | m :: t, n, h => by
    by_cases hn : n = m
    · simp [List.lookup, hn]
    · have ht : n ∈ t := by
        rcases List.mem_cons.1 h with he | ht
        · exact absurd he hn
        · exact ht
      have hb : (n == m) = false := beq_eq_false_iff_ne.2 hn
      simp only [List.map_cons, List.lookup, hb]
      exact lookup_map_self f t n ht

/-- When every requested name exists, the slice loop extends the five
dictionaries of the accumulator by exactly the tabulated entries. -/
theorem sliceLoop_ok (st : ClusterState) (ex : List String) :
    ∀ (ns : List String) (c : ClusterState), (∀ n ∈ ns, n ∈ ex) →
      sliceLoop st ex ns c = Except.ok
        { dataObj := c.dataObj,
          labels := c.labels ++ ns.map (fun n => (n, (st.labels.lookup n).getD [])),
          data_source := c.data_source ++ ns.map (fun n => (n, (st.data_source.lookup n).getD "")),
          params := c.params ++ ns.map (fun n => (n, (st.params.lookup n).getD [])),
          clusterNumbers := c.clusterNumbers ++ ns.map (fun n => (n, (st.clusterNumbers.lookup n).getD [])),
          algorithms := c.algorithms ++ ns.map (fun n => (n, (st.algorithms.lookup n).getD "")) }
  | [], c, _ => by simp [sliceLoop]
  | n :: rest, c, h => by
    rw [sliceLoop, if_pos (h n (List.mem_cons_self n rest))]
    rw [sliceLoop_ok st ex rest _ (fun m hm => h m (List.mem_cons_of_mem n hm))]
    simp

/-- When some requested name does not exist, the slice loop raises. -/
theorem sliceLoop_err (st : ClusterState) (ex : List String) :
    ∀ (ns : List String) (c : ClusterState), (∃ n ∈ ns, n ∉ ex) →
      ∃ msg, sliceLoop st ex ns c = Except.error msg
  | [], _, h => by
    rcases h with ⟨n, hn, _⟩
    exact absurd hn (List.not_mem_nil n)
  | n :: rest, c, h => by
    by_cases hn : n ∈ ex
    · rw [sliceLoop, if_pos hn]
      apply sliceLoop_err st ex rest
      rcases h with ⟨m, hm, hnot⟩
      rcases List.mem_cons.1 hm with rfl | hm2
      · exact absurd hn hnot
      · exact ⟨m, hm2, hnot⟩
    · rw [sliceLoop, if_neg hn]
      exact ⟨_, rfl⟩

/-- C10: for a list of existing solution names, `cluster.slice` returns a
fresh cluster object sharing the data object, whose five dictionaries
hold exactly the requested names with entries equal to the original ones,
and leaves the receiver unchanged; for a list containing a missing name
it raises `ValueError` and the receiver is again unchanged. -/
theorem C10_slice_contract (st : ClusterState) (names : List String) :
    ((∀ n ∈ names, n ∈ st.labels.map (fun p => p.1)) →
      (∀ n ∈ names, (st.data_source.lookup n).isSome = true ∧
        (st.params.lookup n).isSome = true ∧
        (st.clusterNumbers.lookup n).isSome = true ∧
        (st.algorithms.lookup n).isSome = true) →
      ∃ c : ClusterState,
        slice st names = (Except.ok c, st) ∧
        c.dataObj = st.dataObj ∧
        c.labels.map (fun p => p.1) = names ∧
        c.data_source.map (fun p => p.1) = names ∧
        c.params.map (fun p => p.1) = names ∧
        c.clusterNumbers.map (fun p => p.1) = names ∧
        c.algorithms.map (fun p => p.1) = names ∧
        (∀ n ∈ names,
          c.labels.lookup n = st.labels.lookup n ∧
          c.data_source.lookup n = st.data_source.lookup n ∧
          c.params.lookup n = st.params.lookup n ∧
          c.clusterNumbers.lookup n = st.clusterNumbers.lookup n ∧
          c.algorithms.lookup n = st.algorithms.lookup n)) ∧
    ((∃ n ∈ names, n ∉ st.labels.map (fun p => p.1)) →
      ∃ msg, slice st names = (Except.error msg, st)) := by
  constructor
  · intro hall hkeys
    refine ⟨{ dataObj := st.dataObj,
              labels := [] ++ names.map (fun n => (n, (st.labels.lookup n).getD [])),
              data_source := [] ++ names.map (fun n => (n, (st.data_source.lookup n).getD "")),
              params := [] ++ names.map (fun n => (n, (st.params.lookup n).getD [])),
              clusterNumbers := [] ++ names.map (fun n => (n, (st.clusterNumbers.lookup n).getD [])),
              algorithms := [] ++ names.map (fun n => (n, (st.algorithms.lookup n).getD "")) },
      ?_, ?_, ?_, ?_, ?_, ?_, ?_, ?_⟩
    · rw [slice, sliceLoop_ok st _ names _ hall]
    · rfl
    · simp [Function.comp_def]
    · simp [Function.comp_def]
    · simp [Function.comp_def]
    · simp [Function.comp_def]
    · simp [Function.comp_def]
    · intro n hn
      have hgetD : ∀ {β : Type} (o : Option β) (d : β), o.isSome = true →
          some (o.getD d) = o := by
        intro β o d ho
        rcases o with _ | x
        · exact absurd ho (by simp)
        · rfl
      refine ⟨?_, ?_, ?_, ?_, ?_⟩
      · simp only [List.nil_append]
        rw [lookup_map_self _ names n hn]
        exact hgetD _ _ (lookup_isSome_of_mem_keys st.labels n (hall n hn))
      · simp only [List.nil_append]
        rw [lookup_map_self _ names n hn]
        exact hgetD _ _ (hkeys n hn).1
      · simp only [List.nil_append]
        rw [lookup_map_self _ names n hn]
        exact hgetD _ _ (hkeys n hn).2.1
      · simp only [List.nil_append]
        rw [lookup_map_self _ names n hn]
        exact hgetD _ _ (hkeys n hn).2.2.1
      · simp only [List.nil_append]
        rw [lookup_map_self _ names n hn]
        exact hgetD _ _ (hkeys n hn).2.2.2
  · intro hex
    rcases sliceLoop_err st (st.labels.map (fun p => p.1)) names
      { dataObj := st.dataObj, labels := [], data_source := [], params := [],
        clusterNumbers := [], algorithms := [] } hex with ⟨msg, hmsg⟩
    exact ⟨msg, by rw [slice, hmsg]⟩

/-- Witness for C10: slicing a two-solution cluster object down to one
existing name. -/
theorem C10_slice_contract_witness :
    ((∀ n ∈ ["a"], n ∈ (ClusterState.mk [] [("a", [0]), ("b", [1])]
        [("a", "parent"), ("b", "parent")] [("a", []), ("b", [])]
        [("a", [0]), ("b", [1])] [("a", "kmeans"), ("b", "kmeans")]).labels.map
          (fun p => p.1)) →
      (∀ n ∈ ["a"],
        ((ClusterState.mk [] [("a", [0]), ("b", [1])]
          [("a", "parent"), ("b", "parent")] [("a", []), ("b", [])]
          [("a", [0]), ("b", [1])]
          [("a", "kmeans"), ("b", "kmeans")]).data_source.lookup n).isSome = true ∧
        ((ClusterState.mk [] [("a", [0]), ("b", [1])]
          [("a", "parent"), ("b", "parent")] [("a", []), ("b", [])]
          [("a", [0]), ("b", [1])]
          [("a", "kmeans"), ("b", "kmeans")]).params.lookup n).isSome = true ∧
        ((ClusterState.mk [] [("a", [0]), ("b", [1])]
          [("a", "parent"), ("b", "parent")] [("a", []), ("b", [])]
          [("a", [0]), ("b", [1])]
          [("a", "kmeans"), ("b", "kmeans")]).clusterNumbers.lookup n).isSome = true ∧
        ((ClusterState.mk [] [("a", [0]), ("b", [1])]
          [("a", "parent"), ("b", "parent")] [("a", []), ("b", [])]
          [("a", [0]), ("b", [1])]
          [("a", "kmeans"), ("b", "kmeans")]).algorithms.lookup n).isSome = true) →
      ∃ c : ClusterState,
        slice (ClusterState.mk [] [("a", [0]), ("b", [1])]
          [("a", "parent"), ("b", "parent")] [("a", []), ("b", [])]
          [("a", [0]), ("b", [1])] [("a", "kmeans"), ("b", "kmeans")]) ["a"] =
            (Except.ok c, ClusterState.mk [] [("a", [0]), ("b", [1])]
              [("a", "parent"), ("b", "parent")] [("a", []), ("b", [])]
              [("a", [0]), ("b", [1])] [("a", "kmeans"), ("b", "kmeans")]) ∧
        c.dataObj = (ClusterState.mk [] [("a", [0]), ("b", [1])]
          [("a", "parent"), ("b", "parent")] [("a", []), ("b", [])]
          [("a", [0]), ("b", [1])] [("a", "kmeans"), ("b", "kmeans")]).dataObj ∧
        c.labels.map (fun p => p.1) = ["a"] ∧
        c.data_source.map (fun p => p.1) = ["a"] ∧
        c.params.map (fun p => p.1) = ["a"] ∧
        c.clusterNumbers.map (fun p => p.1) = ["a"] ∧
        c.algorithms.map (fun p => p.1) = ["a"] ∧
        (∀ n ∈ ["a"],
          c.labels.lookup n = (ClusterState.mk [] [("a", [0]), ("b", [1])]
            [("a", "parent"), ("b", "parent")] [("a", []), ("b", [])]
            [("a", [0]), ("b", [1])] [("a", "kmeans"), ("b", "kmeans")]).labels.lookup n ∧
          c.data_source.lookup n = (ClusterState.mk [] [("a", [0]), ("b", [1])]
            [("a", "parent"), ("b", "parent")] [("a", []), ("b", [])]
            [("a", [0]), ("b", [1])] [("a", "kmeans"), ("b", "kmeans")]).data_source.lookup n ∧
          c.params.lookup n = (ClusterState.mk [] [("a", [0]), ("b", [1])]
            [("a", "parent"), ("b", "parent")] [("a", []), ("b", [])]
            [("a", [0]), ("b", [1])] [("a", "kmeans"), ("b", "kmeans")]).params.lookup n ∧
          c.clusterNumbers.lookup n = (ClusterState.mk [] [("a", [0]), ("b", [1])]
            [("a", "parent"), ("b", "parent")] [("a", []), ("b", [])]
            [("a", [0]), ("b", [1])] [("a", "kmeans"), ("b", "kmeans")]).clusterNumbers.lookup n ∧
          c.algorithms.lookup n = (ClusterState.mk [] [("a", [0]), ("b", [1])]
            [("a", "parent"), ("b", "parent")] [("a", []), ("b", [])]
            [("a", [0]), ("b", [1])] [("a", "kmeans"), ("b", "kmeans")]).algorithms.lookup n)) ∧
    ((∃ n ∈ ["a"], n ∉ (ClusterState.mk [] [("a", [0]), ("b", [1])]
        [("a", "parent"), ("b", "parent")] [("a", []), ("b", [])]
        [("a", [0]), ("b", [1])] [("a", "kmeans"), ("b", "kmeans")]).labels.map
          (fun p => p.1)) →
      ∃ msg, slice (ClusterState.mk [] [("a", [0]), ("b", [1])]
        [("a", "parent"), ("b", "parent")] [("a", []), ("b", [])]
        [("a", [0]), ("b", [1])] [("a", "kmeans"), ("b", "kmeans")]) ["a"] =
          (Except.error msg, ClusterState.mk [] [("a", [0]), ("b", [1])]
            [("a", "parent"), ("b", "parent")] [("a", []), ("b", [])]
            [("a", [0]), ("b", [1])] [("a", "kmeans"), ("b", "kmeans")])) :=
  C10_slice_contract (ClusterState.mk [] [("a", [0]), ("b", [1])]
    [("a", "parent"), ("b", "parent")] [("a", []), ("b", [])]
    [("a", [0]), ("b", [1])] [("a", "kmeans"), ("b", "kmeans")]) ["a"]

/-! Claim C5: invariance under a global relabeling of clusters.  The
hypotheses are a permutation `π` of the cluster ids `0..K-1` and a label
vector whose values are exactly `0..K-1`. -/

/-- The value set of a mapped list is the image of the value set. -/
theorem list_toFinset_map (l : List ℕ) (f : ℕ → ℕ) :
    (l.map f).toFinset = l.toFinset.image f := by
  ext x
  simp

/-- A self-injection of `range K` is onto `range K`. -/
theorem image_range_eq {K : ℕ} {π : ℕ → ℕ}
    (hmap : ∀ i ∈ Finset.range K, π i ∈ Finset.range K)
    (hinj : ∀ i ∈ Finset.range K, ∀ j ∈ Finset.range K, π i = π j → i = j) :
    (Finset.range K).image π = Finset.range K := by
  apply Finset.eq_of_subset_of_card_le
  · intro x hx
    rcases Finset.mem_image.1 hx with ⟨i, hi, rfl⟩
    exact hmap i hi
  · rw [Finset.card_image_of_injOn]
    intro i hi j hj
    exact hinj i (by simpa using hi) j (by simpa using hj)

/-- Reindexing a `Finset.range` sum along a permutation of `0..K-1`. -/
theorem sum_range_reindex {M : Type*} [AddCommMonoid M] {K : ℕ} {π : ℕ → ℕ}
    (hmap : ∀ i ∈ Finset.range K, π i ∈ Finset.range K)
    (hinj : ∀ i ∈ Finset.range K, ∀ j ∈ Finset.range K, π i = π j → i = j)
    (f : ℕ → M) :
    ∑ i ∈ Finset.range K, f (π i) = ∑ i ∈ Finset.range K, f i := by
  conv_rhs => rw [← image_range_eq hmap hinj]
  rw [Finset.sum_image]
  intro i hi j hj
  exact hinj i hi j hj

/-- Relabeling maps a contiguous label vector to a contiguous one. -/
theorem toFinset_map_contiguous {labels : List ℕ} {K : ℕ} {π : ℕ → ℕ}
    (hcont : labels.toFinset = Finset.range K)
    (hmap : ∀ i ∈ Finset.range K, π i ∈ Finset.range K)
    (hinj : ∀ i ∈ Finset.range K, ∀ j ∈ Finset.range K, π i = π j → i = j) :
    (labels.map π).toFinset = Finset.range K := by
  rw [list_toFinset_map, hcont, image_range_eq hmap hinj]

/-- The second component of an `enum` entry is a list member. -/
theorem snd_mem_of_mem_enum {α : Type*} {l : List α} {tx : ℕ × α}
    (h : tx ∈ l.enum) : tx.2 ∈ l := by
  rw [List.mem_enum_iff_getElem?] at h
  exact List.getElem?_mem h

/-- Relabeling permutes the per-cluster index lists: the members of
cluster `π i` of the relabeled vector are the members of cluster `i`. -/
theorem clusterIndices_map_relabel {labels : List ℕ} {K : ℕ} {π : ℕ → ℕ}
    (hsub : ∀ x ∈ labels, x < K)
    (hinj : ∀ i ∈ Finset.range K, ∀ j ∈ Finset.range K, π i = π j → i = j)
    {i : ℕ} (hi : i < K) :
    clusterIndices (labels.map π) (π i) = clusterIndices labels i := by
  unfold clusterIndices
  rw [List.enum_map, List.filter_map, List.map_map]
  have hcomp : ((fun tx : ℕ × ℕ => tx.2 == π i) ∘ Prod.map id π) =
      fun tx : ℕ × ℕ => π tx.2 == π i := by
    funext tx
    simp [Prod.map]
  rw [hcomp]
  have hfst : (Prod.fst ∘ Prod.map (id : ℕ → ℕ) π) = (Prod.fst : ℕ × ℕ → ℕ) := by
    funext tx
    simp [Prod.map]
  rw [hfst]
  have hfil : labels.enum.filter (fun tx => π tx.2 == π i) =
      labels.enum.filter (fun tx => tx.2 == i) := by
    apply List.filter_congr
    intro tx htx
    have hx : tx.2 < K := hsub _ (snd_mem_of_mem_enum htx)
    by_cases h : tx.2 = i
    · simp [h]
    · have hne : π tx.2 ≠ π i := fun he =>
        h (hinj tx.2 (Finset.mem_range.2 hx) i (Finset.mem_range.2 hi) he)
      simp [h, hne]
  rw [hfil]

/-- Any sum of a function of the per-cluster index lists over the cluster
ids `0..K-1` is invariant under relabeling of a contiguous label vector. -/
theorem sum_clusters_relabel {M : Type*} [AddCommMonoid M]
    {labels : List ℕ} {K : ℕ} {π : ℕ → ℕ}
    (hcont : labels.toFinset = Finset.range K)
    (hmap : ∀ i ∈ Finset.range K, π i ∈ Finset.range K)
    (hinj : ∀ i ∈ Finset.range K, ∀ j ∈ Finset.range K, π i = π j → i = j)
    (g : List ℕ → M) :
    ∑ i ∈ Finset.range K, g (clusterIndices (labels.map π) i) =
      ∑ i ∈ Finset.range K, g (clusterIndices labels i) := by
  have hsub : ∀ x ∈ labels, x < K := by
    intro x hx
    have := List.mem_toFinset.2 hx
    rw [hcont, Finset.mem_range] at this
    exact this
  rw [← sum_range_reindex hmap hinj (fun i => g (clusterIndices (labels.map π) i))]
  apply Finset.sum_congr rfl
  intro i hi
  rw [clusterIndices_map_relabel hsub hinj (Finset.mem_range.1 hi)]

/-- Summing a mapped `List.range` is a `Finset.range` sum. -/
theorem map_range_sum_eq {M : Type*} [AddCommMonoid M] (g : ℕ → M) (n : ℕ) :
    ((List.range n).map g).sum = ∑ i ∈ Finset.range n, g i := by
  have h := range_foldl_add_eq_sum g n
  rw [foldl_add_eq, zero_add] at h
  exact h

/-- A filtered map-sum as a map-sum of a guarded function. -/
theorem filter_map_sum {α : Type*} {M : Type*} [AddCommMonoid M]
    (p : α → Bool) (h : α → M) :
    ∀ l : List α, ((l.filter p).map h).sum =
      (l.map (fun x => if p x = true then h x else 0)).sum
  | [] => rfl
  | x :: t => by
    by_cases hp : p x <;>
      simp [List.filter_cons, hp, filter_map_sum p h t]

/-- Swapping the two levels of a nested list sum. -/
theorem list_double_sum_comm {α β : Type*} (f : α → β → ℝ) :
    ∀ (A : List α) (B : List β),
      (A.map (fun a => (B.map (f a)).sum)).sum =
        (B.map (fun b => (A.map (fun a => f a b)).sum)).sum
  | [], B => by simp
  | a :: A, B => by
    simp only [List.map_cons, List.sum_cons, list_double_sum_comm f A B,
      List.sum_map_add]

/-- The embedded euclidean distance is symmetric. -/
theorem euclidean_comm (a b : List ℝ) : euclidean a b = euclidean b a := by
  unfold euclidean sqDiffSum
  rw [List.zipWith_comm_of_comm]
  intro x y
  ring

/-- The total of all between-cluster distances is symmetric in the two
clusters. -/
theorem cdistSum_comm (A B : Mat) : cdistSum A B = cdistSum B A := by
  unfold cdistSum
  rw [list_double_sum_comm]
  have hfn : (fun b => (A.map (fun a => euclidean a b)).sum) =
      (fun b => (A.map (fun a => euclidean b a)).sum) := by
    funext b
    rw [show (fun a => euclidean a b) = (fun a => euclidean b a) from
      funext (fun a => euclidean_comm a b)]
  rw [hfn]

/-- Cluster counts `max(labels)+1` agree before and after relabeling a
contiguous vector. -/
theorem numClusterMax_map_relabel {labels : List ℕ} {K : ℕ} {π : ℕ → ℕ}
    (hK : 0 < K) (hcont : labels.toFinset = Finset.range K)
    (hmap : ∀ i ∈ Finset.range K, π i ∈ Finset.range K)
    (hinj : ∀ i ∈ Finset.range K, ∀ j ∈ Finset.range K, π i = π j → i = j) :
    numClusterMax (labels.map π) = K :=
  numClusterMax_of_contiguous hK (toFinset_map_contiguous hcont hmap hinj)

/-- The within-cluster distance total is invariant under relabeling. -/
theorem swSum_relabel (data : Mat) {labels : List ℕ} {K : ℕ} {π : ℕ → ℕ}
    (hK : 0 < K) (hcont : labels.toFinset = Finset.range K)
    (hmap : ∀ i ∈ Finset.range K, π i ∈ Finset.range K)
    (hinj : ∀ i ∈ Finset.range K, ∀ j ∈ Finset.range K, π i = π j → i = j) :
    swSum data (labels.map π) = swSum data labels := by
  unfold swSum
  rw [numClusterMax_map_relabel hK hcont hmap hinj,
    numClusterMax_of_contiguous hK hcont,
    range_foldl_add_eq_sum, range_foldl_add_eq_sum]
  exact sum_clusters_relabel hcont hmap hinj
    (fun I => (pdist (selectRows data I)).sum)

/-- The within-cluster pair count is invariant under relabeling. -/
theorem nwSum_relabel (data : Mat) {labels : List ℕ} {K : ℕ} {π : ℕ → ℕ}
    (hK : 0 < K) (hcont : labels.toFinset = Finset.range K)
    (hmap : ∀ i ∈ Finset.range K, π i ∈ Finset.range K)
    (hinj : ∀ i ∈ Finset.range K, ∀ j ∈ Finset.range K, π i = π j → i = j) :
    nwSum data (labels.map π) = nwSum data labels := by
  unfold nwSum
  rw [numClusterMax_map_relabel hK hcont hmap hinj,
    numClusterMax_of_contiguous hK hcont,
    range_foldl_add_eq_sum, range_foldl_add_eq_sum]
  exact sum_clusters_relabel hcont hmap hinj
    (fun I => (pdist (selectRows data I)).length)

/-- The between-cluster loop of `McClain_Rao` and `point_biserial` as a
double `Finset.range` sum over the ordered cluster pairs. -/
theorem sbSum_eq_sum (data : Mat) (labels : List ℕ) :
    sbSum data labels = ∑ i ∈ Finset.range (numClusterMax labels),
      ∑ j ∈ Finset.range (numClusterMax labels),
        if i < j then cdistSum (selectRows data (clusterIndices labels i))
          (selectRows data (clusterIndices labels j)) else 0 := by
  unfold sbSum
  have hbody : (fun (s : ℝ) i =>
      ((List.range (numClusterMax labels)).filter (fun j => i < j)).foldl
        (fun s2 j => s2 + cdistSum (selectRows data (clusterIndices labels i))
          (selectRows data (clusterIndices labels j))) s) =
      (fun s i => s + ∑ j ∈ Finset.range (numClusterMax labels),
        if i < j then cdistSum (selectRows data (clusterIndices labels i))
          (selectRows data (clusterIndices labels j)) else 0) := by
    funext s i
    rw [foldl_add_eq, filter_map_sum, map_range_sum_eq]
    congr 1
    apply Finset.sum_congr rfl
    intro j _
    simp
  rw [hbody, range_foldl_add_eq_sum]

/-- Reindexing a sum over the ordered pairs of `0..K-1` along a
permutation, for a symmetric summand. -/
theorem sum_lt_pairs_reindex {K : ℕ} {π : ℕ → ℕ}
    (hinj : ∀ i ∈ Finset.range K, ∀ j ∈ Finset.range K, π i = π j → i = j)
    (G : ℕ → ℕ → ℝ) (hsym : ∀ i j, G i j = G j i) :
    (∑ i ∈ Finset.range K, ∑ j ∈ Finset.range K, if π i < π j then G i j else 0) =
      ∑ i ∈ Finset.range K, ∑ j ∈ Finset.range K, if i < j then G i j else 0 := by
  have key : ∀ (τ : ℕ → ℕ),
      (∀ i ∈ Finset.range K, ∀ j ∈ Finset.range K, (τ i = τ j ↔ i = j)) →
      (∑ i ∈ Finset.range K, ∑ j ∈ Finset.range K, if τ i < τ j then G i j else 0) +
        (∑ i ∈ Finset.range K, ∑ j ∈ Finset.range K, if τ i < τ j then G i j else 0) =
      ∑ i ∈ Finset.range K, ∑ j ∈ Finset.range K, if i ≠ j then G i j else 0 := by
    intro τ hτ
    have hT : (∑ i ∈ Finset.range K, ∑ j ∈ Finset.range K,
        if τ j < τ i then G i j else 0) =
        ∑ i ∈ Finset.range K, ∑ j ∈ Finset.range K, if τ i < τ j then G i j else 0 := by
      rw [Finset.sum_comm]
      apply Finset.sum_congr rfl
      intro i _
      apply Finset.sum_congr rfl
      intro j _
      rw [hsym j i]
    nth_rewrite 2 [← hT]
    rw [← Finset.sum_add_distrib]
    apply Finset.sum_congr rfl
    intro i hi
    rw [← Finset.sum_add_distrib]
    apply Finset.sum_congr rfl
    intro j hj
    rcases lt_trichotomy (τ i) (τ j) with hlt | heq | hgt
    · have hne : i ≠ j := fun he => absurd (congrArg τ he) (ne_of_lt hlt)
      rw [if_pos hlt, if_neg (not_lt_of_gt hlt), if_pos hne, add_zero]
    · have hij : i = j := (hτ i hi j hj).1 heq
      rw [if_neg (by omega), if_neg (by omega), if_neg (by simp [hij]), add_zero]
    · have hne : i ≠ j := fun he => absurd (congrArg τ he) (ne_of_gt hgt)
      rw [if_neg (not_lt_of_gt hgt), if_pos hgt, if_pos hne, zero_add]
  have hιd : ∀ i ∈ Finset.range K, ∀ j ∈ Finset.range K,
      ((fun n => n) i = (fun n => n) j ↔ i = j) := by
    intro i _ j _
    exact Iff.rfl
  have hπ : ∀ i ∈ Finset.range K, ∀ j ∈ Finset.range K, (π i = π j ↔ i = j) := by
    intro i hi j hj
    exact ⟨hinj i hi j hj, fun he => congrArg π he⟩
  have h1 := key π hπ
  have h2 := key (fun n => n) hιd
  simp only at h2
  linarith [h1, h2]

/-- The between-cluster distance total is invariant under relabeling. -/
theorem sbSum_relabel (data : Mat) {labels : List ℕ} {K : ℕ} {π : ℕ → ℕ}
    (hK : 0 < K) (hcont : labels.toFinset = Finset.range K)
    (hmap : ∀ i ∈ Finset.range K, π i ∈ Finset.range K)
    (hinj : ∀ i ∈ Finset.range K, ∀ j ∈ Finset.range K, π i = π j → i = j) :
    sbSum data (labels.map π) = sbSum data labels := by
  have hsub : ∀ x ∈ labels, x < K := by
    intro x hx
    have hm := List.mem_toFinset.2 hx
    rw [hcont, Finset.mem_range] at hm
    exact hm
  rw [sbSum_eq_sum, sbSum_eq_sum,
    numClusterMax_map_relabel hK hcont hmap hinj,
    numClusterMax_of_contiguous hK hcont]
  calc (∑ i ∈ Finset.range K, ∑ j ∈ Finset.range K,
        if i < j then cdistSum (selectRows data (clusterIndices (labels.map π) i))
          (selectRows data (clusterIndices (labels.map π) j)) else 0)
      = ∑ i ∈ Finset.range K, ∑ j ∈ Finset.range K,
          if π i < π j then cdistSum
            (selectRows data (clusterIndices (labels.map π) (π i)))
            (selectRows data (clusterIndices (labels.map π) (π j))) else 0 := by
        rw [← sum_range_reindex hmap hinj (fun i => ∑ j ∈ Finset.range K,
          if i < j then cdistSum (selectRows data (clusterIndices (labels.map π) i))
            (selectRows data (clusterIndices (labels.map π) j)) else 0)]
        apply Finset.sum_congr rfl
        intro i _
        rw [← sum_range_reindex hmap hinj (fun j =>
          if π i < j then cdistSum (selectRows data (clusterIndices (labels.map π) (π i)))
            (selectRows data (clusterIndices (labels.map π) j)) else 0)]
    _ = ∑ i ∈ Finset.range K, ∑ j ∈ Finset.range K,
          if π i < π j then cdistSum (selectRows data (clusterIndices labels i))
            (selectRows data (clusterIndices labels j)) else 0 := by
        apply Finset.sum_congr rfl
        intro i hi
        apply Finset.sum_congr rfl
        intro j hj
        rw [clusterIndices_map_relabel hsub hinj (Finset.mem_range.1 hi),
          clusterIndices_map_relabel hsub hinj (Finset.mem_range.1 hj)]
    _ = ∑ i ∈ Finset.range K, ∑ j ∈ Finset.range K,
          if i < j then cdistSum (selectRows data (clusterIndices labels i))
            (selectRows data (clusterIndices labels j)) else 0 := by
        apply sum_lt_pairs_reindex hinj
        intro i j
        exact cdistSum_comm _ _

/-- Indexing a mapped list below its length. -/
theorem getD_map_lt {α β : Type*} (f : α → β) (l : List α) (p : ℕ)
    (hp : p < l.length) (d : β) : (l.map f).getD p d = f (l.get ⟨p, hp⟩) := by
  rw [List.getD_eq_getElem?_getD, List.getElem?_map, List.getElem?_eq_getElem hp]
  rfl

/-- Every condensed index pair is ordered and in range. -/
theorem pairIdx_mem {n : ℕ} {q : ℕ × ℕ} (h : q ∈ pairIdx n) :
    q.1 < q.2 ∧ q.2 < n := by
  unfold pairIdx at h
  rw [List.mem_flatMap] at h
  rcases h with ⟨a, _, hq⟩
  rw [List.mem_map] at hq
  rcases hq with ⟨b, hb, rfl⟩
  rw [List.mem_filter] at hb
  exact ⟨by simpa using hb.2, List.mem_range.1 hb.1⟩

/-- The rows built for the label matrix `temp` of `Baker_Hubert_Gamma`. -/
theorem tempMat_getD {labels : List ℕ} {a : ℕ} (ha : a < labels.length) :
    (tempMat labels).getD a [] = [((labels.get ⟨a, ha⟩ : ℕ) : ℝ), 0] := by
  unfold tempMat
  rw [getD_map_lt _ _ _ ha]

/-- The euclidean distance of two `temp` rows is the label gap. -/
theorem euclidean_temp_rows (x y : ℝ) :
    euclidean [x, 0] [y, 0] = |x - y| := by
  unfold euclidean sqDiffSum
  simp [Real.sqrt_sq_eq_abs]

/-- Entries of a condensed distance vector are nonnegative. -/
theorem pdist_getD_nonneg (m : Mat) (p : ℕ) : 0 ≤ (pdist m).getD p 0 := by
  by_cases hp : p < (pdist m).length
  · unfold pdist at hp ⊢
    rw [List.length_map] at hp
    rw [getD_map_lt _ _ _ hp]
    exact Real.sqrt_nonneg _
  · rw [List.getD_eq_default _ _ (le_of_not_lt hp)]

/-- Relabeling preserves the zero pattern and the positivity pattern of
the label-distance vector `vecB` of `Baker_Hubert_Gamma`. -/
theorem vecB_relabel_pointwise {labels : List ℕ} {K : ℕ} {π : ℕ → ℕ}
    (hsub : ∀ x ∈ labels, x < K)
    (hinj : ∀ i ∈ Finset.range K, ∀ j ∈ Finset.range K, π i = π j → i = j)
    (p : ℕ) :
    ((pdist (tempMat (labels.map π))).getD p 0 = 0 ↔
      (pdist (tempMat labels)).getD p 0 = 0) ∧
    (0 < (pdist (tempMat (labels.map π))).getD p 0 ↔
      0 < (pdist (tempMat labels)).getD p 0) := by
  have hz : (pdist (tempMat (labels.map π))).getD p 0 = 0 ↔
      (pdist (tempMat labels)).getD p 0 = 0 := by
    have hlen1 : (tempMat (labels.map π)).length = labels.length := by
      simp [tempMat]
    have hlen2 : (tempMat labels).length = labels.length := by
      simp [tempMat]
    by_cases hp : p < (pairIdx labels.length).length
    · unfold pdist
      rw [hlen1, hlen2, getD_map_lt _ _ _ hp, getD_map_lt _ _ _ hp]
      rcases pairIdx_mem (List.get_mem (pairIdx labels.length) p hp) with ⟨hab, hbn⟩
      have han : ((pairIdx labels.length).get ⟨p, hp⟩).1 < labels.length :=
        lt_trans hab hbn
      have han2 : ((pairIdx labels.length).get ⟨p, hp⟩).1 < (labels.map π).length := by
        rw [List.length_map]; exact han
      have hbn2 : ((pairIdx labels.length).get ⟨p, hp⟩).2 < (labels.map π).length := by
        rw [List.length_map]; exact hbn
      rw [tempMat_getD han, tempMat_getD hbn, tempMat_getD han2, tempMat_getD hbn2]
      have hga : (labels.map π).get ⟨_, han2⟩ = π (labels.get ⟨_, han⟩) :=
        List.get_map π
      have hgb : (labels.map π).get ⟨_, hbn2⟩ = π (labels.get ⟨_, hbn⟩) :=
        List.get_map π
      rw [hga, hgb, euclidean_temp_rows, euclidean_temp_rows, abs_eq_zero,
        abs_eq_zero, sub_eq_zero, sub_eq_zero, Nat.cast_inj, Nat.cast_inj]
      constructor
      · intro he
        exact hinj _ (Finset.mem_range.2 (hsub _ (List.get_mem _ _ han)))
          _ (Finset.mem_range.2 (hsub _ (List.get_mem _ _ hbn))) he
      · intro he
        rw [he]
    · have h1 : ((pdist (tempMat (labels.map π))).getD p 0) = 0 := by
        apply List.getD_eq_default
        unfold pdist
        rw [List.length_map, hlen1]
        exact le_of_not_lt hp
      have h2 : ((pdist (tempMat labels)).getD p 0) = 0 := by
        apply List.getD_eq_default
        unfold pdist
        rw [List.length_map, hlen2]
        exact le_of_not_lt hp
      rw [h1, h2]
  refine ⟨hz, ?_⟩
  have hpos : ∀ (m : Mat) (q : ℕ),
      (0 < (pdist m).getD q 0 ↔ ¬ (pdist m).getD q 0 = 0) := by
    intro m q
    constructor
    · intro h
      exact ne_of_gt h
    · intro h
      exact lt_of_le_of_ne (pdist_getD_nonneg m q) (Ne.symm h)
  rw [hpos, hpos, not_iff_not]
  exact hz

/-- The `splus` increment depends only on the zero/positivity pattern of
the label-distance entries. -/
theorem splusStep_congr {v1i v1j v2i v2j di dj : ℝ}
    (hzi : v1i = 0 ↔ v2i = 0) (hpi : 0 < v1i ↔ 0 < v2i)
    (hzj : v1j = 0 ↔ v2j = 0) (hpj : 0 < v1j ↔ 0 < v2j) :
    splusStep v1i v1j di dj = splusStep v2i v2j di dj := by
  unfold splusStep
  rw [if_congr (and_congr hpi hzj) rfl rfl, if_congr (and_congr hzi hpj) rfl rfl]

/-- The `sminus` increment likewise: the compared `vecB` entry is zero
inside its guard on both sides. -/
theorem sminusStep_congr {v1i v1j v2i v2j di dj : ℝ}
    (hzi : v1i = 0 ↔ v2i = 0) (hpi : 0 < v1i ↔ 0 < v2i)
    (hzj : v1j = 0 ↔ v2j = 0) (hpj : 0 < v1j ↔ 0 < v2j) :
    sminusStep v1i v1j di dj = sminusStep v2i v2j di dj := by
  unfold sminusStep
  by_cases h1 : 0 < v2i ∧ v2j = 0
  · rw [if_pos h1, if_pos ((and_congr hpi hzj).2 h1), hzj.2 h1.2, h1.2]
    simp
  · rw [if_neg h1, if_neg (fun hc => h1 ((and_congr hpi hzj).1 hc))]
    by_cases h2 : v2i = 0 ∧ 0 < v2j
    · rw [if_pos h2, if_pos ((and_congr hzi hpj).2 h2), hzi.2 h2.1, h2.1]
    · rw [if_neg h2, if_neg (fun hc => h2 ((and_congr hzi hpj).1 hc))]

/-- The `splus` double loop only reads the zero/positivity pattern. -/
theorem BHGsplus_congr {v1 v2 pd : List ℝ}
    (h : ∀ p, ((v1.getD p 0 = 0 ↔ v2.getD p 0 = 0) ∧
      (0 < v1.getD p 0 ↔ 0 < v2.getD p 0))) :
    BHGsplus v1 pd = BHGsplus v2 pd := by
  unfold BHGsplus
  have hF : (fun (s : ℕ) i =>
      ((List.range pd.length).filter (fun j => i < j)).foldl
        (fun s2 j => s2 + splusStep (v1.getD i 0) (v1.getD j 0)
          (pd.getD i 0) (pd.getD j 0)) s) =
      (fun s i =>
      ((List.range pd.length).filter (fun j => i < j)).foldl
        (fun s2 j => s2 + splusStep (v2.getD i 0) (v2.getD j 0)
          (pd.getD i 0) (pd.getD j 0)) s) := by
    funext s i
    have hG : (fun (s2 : ℕ) j => s2 + splusStep (v1.getD i 0) (v1.getD j 0)
        (pd.getD i 0) (pd.getD j 0)) =
        (fun s2 j => s2 + splusStep (v2.getD i 0) (v2.getD j 0)
          (pd.getD i 0) (pd.getD j 0)) := by
      funext s2 j
      rw [splusStep_congr (h i).1 (h i).2 (h j).1 (h j).2]
    rw [hG]
  rw [hF]

/-- The `sminus` double loop only reads the zero/positivity pattern. -/
theorem BHGsminus_congr {v1 v2 pd : List ℝ}
    (h : ∀ p, ((v1.getD p 0 = 0 ↔ v2.getD p 0 = 0) ∧
      (0 < v1.getD p 0 ↔ 0 < v2.getD p 0))) :
    BHGsminus v1 pd = BHGsminus v2 pd := by
  unfold BHGsminus
  have hF : (fun (s : ℕ) i =>
      ((List.range pd.length).filter (fun j => i < j)).foldl
        (fun s2 j => s2 + sminusStep (v1.getD i 0) (v1.getD j 0)
          (pd.getD i 0) (pd.getD j 0)) s) =
      (fun s i =>
      ((List.range pd.length).filter (fun j => i < j)).foldl
        (fun s2 j => s2 + sminusStep (v2.getD i 0) (v2.getD j 0)
          (pd.getD i 0) (pd.getD j 0)) s) := by
    funext s i
    have hG : (fun (s2 : ℕ) j => s2 + sminusStep (v1.getD i 0) (v1.getD j 0)
        (pd.getD i 0) (pd.getD j 0)) =
        (fun s2 j => s2 + sminusStep (v2.getD i 0) (v2.getD j 0)
          (pd.getD i 0) (pd.getD j 0)) := by
      funext s2 j
      rw [sminusStep_congr (h i).1 (h i).2 (h j).1 (h j).2]
    rw [hG]
  rw [hF]

/-- `Baker_Hubert_Gamma` is invariant under relabeling. -/
theorem BHG_relabel (data : Mat) {labels : List ℕ} {K : ℕ} {π : ℕ → ℕ}
    (hsub : ∀ x ∈ labels, x < K)
    (hinj : ∀ i ∈ Finset.range K, ∀ j ∈ Finset.range K, π i = π j → i = j) :
    Baker_Hubert_Gamma data (labels.map π) = Baker_Hubert_Gamma data labels := by
  unfold Baker_Hubert_Gamma BHGcounts
  rw [BHGsplus_congr (vecB_relabel_pointwise hsub hinj),
    BHGsminus_congr (vecB_relabel_pointwise hsub hinj)]

/-- `Ball_Hall` is invariant under relabeling. -/
theorem Ball_Hall_relabel (data : Mat) {labels : List ℕ} {K : ℕ} {π : ℕ → ℕ}
    (hK : 0 < K) (hcont : labels.toFinset = Finset.range K)
    (hmap : ∀ i ∈ Finset.range K, π i ∈ Finset.range K)
    (hinj : ∀ i ∈ Finset.range K, ∀ j ∈ Finset.range K, π i = π j → i = j) :
    Ball_Hall data (labels.map π) = Ball_Hall data labels := by
  have hd1 : distinctCount (labels.map π) = K := by
    rw [distinctCount_eq_card, toFinset_map_contiguous hcont hmap hinj,
      Finset.card_range]
  have hd2 : distinctCount labels = K := by
    rw [distinctCount_eq_card, hcont, Finset.card_range]
  unfold Ball_Hall
  rw [hd1, hd2, range_foldl_add_eq_sum, range_foldl_add_eq_sum]
  congr 1
  exact sum_clusters_relabel hcont hmap hinj
    (fun I => ((selectRows data I).foldl
      (fun s member => s + euclidean member (mean0 (selectRows data I)) ^ 2) 0) /
      (I.length : ℝ))

/-- `c_index` is invariant under relabeling. -/
theorem c_index_relabel (data : Mat) {labels : List ℕ} {K : ℕ} {π : ℕ → ℕ}
    (hK : 0 < K) (hcont : labels.toFinset = Finset.range K)
    (hmap : ∀ i ∈ Finset.range K, π i ∈ Finset.range K)
    (hinj : ∀ i ∈ Finset.range K, ∀ j ∈ Finset.range K, π i = π j → i = j) :
    c_index data (labels.map π) = c_index data labels := by
  unfold c_index
  rw [swSum_relabel data hK hcont hmap hinj, nwSum_relabel data hK hcont hmap hinj]

/-- `McClain_Rao` is invariant under relabeling. -/
theorem McClain_Rao_relabel (data : Mat) {labels : List ℕ} {K : ℕ} {π : ℕ → ℕ}
    (hK : 0 < K) (hcont : labels.toFinset = Finset.range K)
    (hmap : ∀ i ∈ Finset.range K, π i ∈ Finset.range K)
    (hinj : ∀ i ∈ Finset.range K, ∀ j ∈ Finset.range K, π i = π j → i = j) :
    McClain_Rao data (labels.map π) = McClain_Rao data labels := by
  unfold McClain_Rao
  rw [swSum_relabel data hK hcont hmap hinj, nwSum_relabel data hK hcont hmap hinj,
    sbSum_relabel data hK hcont hmap hinj, List.length_map]

/-- `point_biserial` is invariant under relabeling. -/
theorem point_biserial_relabel (data : Mat) {labels : List ℕ} {K : ℕ} {π : ℕ → ℕ}
    (hK : 0 < K) (hcont : labels.toFinset = Finset.range K)
    (hmap : ∀ i ∈ Finset.range K, π i ∈ Finset.range K)
    (hinj : ∀ i ∈ Finset.range K, ∀ j ∈ Finset.range K, π i = π j → i = j) :
    point_biserial data (labels.map π) = point_biserial data labels := by
  unfold point_biserial
  rw [swSum_relabel data hK hcont hmap hinj, nwSum_relabel data hK hcont hmap hinj,
    sbSum_relabel data hK hcont hmap hinj, List.length_map]

/-- Bijections of the cluster ids permute any per-cluster tabulation. -/
theorem map_clusters_perm {α : Type*} {labels : List ℕ} {K : ℕ} {π : ℕ → ℕ}
    (hcont : labels.toFinset = Finset.range K)
    (hmap : ∀ i ∈ Finset.range K, π i ∈ Finset.range K)
    (hinj : ∀ i ∈ Finset.range K, ∀ j ∈ Finset.range K, π i = π j → i = j)
    (f : List ℕ → α) :
    ((List.range K).map (fun i => f (clusterIndices (labels.map π) i))).Perm
      ((List.range K).map (fun i => f (clusterIndices labels i))) := by
  have hsub : ∀ x ∈ labels, x < K := by
    intro x hx
    have hm := List.mem_toFinset.2 hx
    rw [hcont, Finset.mem_range] at hm
    exact hm
  rw [← Multiset.coe_eq_coe, ← Multiset.map_coe, ← Multiset.map_coe]
  have hrange : ((List.range K : List ℕ) : Multiset ℕ) = Multiset.range K := rfl
  rw [hrange]
  have hπr : Multiset.map π (Multiset.range K) = Multiset.range K := by
    have himg := image_range_eq hmap hinj
    have hval := congrArg Finset.val himg
    rw [Finset.image_val] at hval
    have hnd : ((Finset.range K).val.map π).Nodup := by
      apply Multiset.Nodup.map_on
      · intro x hx y hy
        exact hinj x (by simpa using hx) y (by simpa using hy)
      · exact (Finset.range K).nodup
    rw [Multiset.dedup_eq_self.2 hnd] at hval
    exact hval
  conv_lhs => rw [← hπr]
  rw [Multiset.map_map]
  apply Multiset.map_congr rfl
  intro i hi
  have hiK : i < K := Multiset.mem_range.1 hi
  simp only [Function.comp_apply]
  rw [clusterIndices_map_relabel hsub hinj hiK]

/-- Universal statements over `0..K-1` can be reindexed along a
self-injection of `0..K-1`. -/
theorem forall_range_reindex {K : ℕ} {π : ℕ → ℕ}
    (hmap : ∀ i ∈ Finset.range K, π i ∈ Finset.range K)
    (hinj : ∀ i ∈ Finset.range K, ∀ j ∈ Finset.range K, π i = π j → i = j)
    (p : ℕ → Prop) :
    (∀ i ∈ Finset.range K, p (π i)) ↔ (∀ i ∈ Finset.range K, p i) := by
  constructor
  · intro h a ha
    have himg := image_range_eq hmap hinj
    rw [← himg] at ha
    rcases Finset.mem_image.1 ha with ⟨i, hi, rfl⟩
    exact h i hi
  · intro h i hi
    exact h (π i) (hmap i hi)

/-- Python `max` of a nonempty list only depends on the multiset of its
elements. -/
theorem pythonMax_perm {l1 l2 : List ℝ} (h : l1.Perm l2) (hne : l1 ≠ []) :
    pythonMax l1 = pythonMax l2 := by
  have hne2 : l2 ≠ [] := by
    intro he
    rw [he] at h
    exact hne h.eq_nil
  have hmem : ∀ (l : List ℝ), l ≠ [] → l.getD 0 0 ∈ l := by
    intro l hl
    cases l with
    | nil => exact absurd rfl hl
    | cons x t => simp [List.getD]
  have hself : ∀ (l : List ℝ), l ≠ [] → pythonMax l ∈ l := by
    intro l hl
    rcases foldl_max_mem l (l.getD 0 0) with hm | hm
    · exact hm
    · rw [pythonMax, hm]
      exact hmem l hl
  have hub : ∀ (l : List ℝ), ∀ x ∈ l, x ≤ pythonMax l := by
    intro l x hx
    exact mem_le_foldl_max _ hx
  apply le_antisymm
  · exact hub l2 _ (h.mem_iff.1 (hself l1 hne))
  · exact hub l1 _ (h.mem_iff.2 (hself l2 hne2))

/-- Rows add right-commutatively. -/
theorem zipWith_add_right_comm :
    ∀ (b x y : List ℝ), List.zipWith (· + ·) (List.zipWith (· + ·) b x) y =
      List.zipWith (· + ·) (List.zipWith (· + ·) b y) x
  | [], _, _ => by simp
  | _ :: _, [], _ => by simp
  | _ :: _, _ :: _, [] => by simp
  | b0 :: b, x0 :: x, y0 :: y => by
    simp only [List.zipWith_cons_cons, zipWith_add_right_comm b x y,
      List.cons.injEq, and_true]
    ring

/-- Matrices add right-commutatively. -/
theorem matAdd_right_comm :
    ∀ (b x y : Mat), matAdd (matAdd b x) y = matAdd (matAdd b y) x
  | [], _, _ => by simp [matAdd]
  | _ :: _, [], _ => by simp [matAdd]
  | _ :: _, _ :: _, [] => by simp [matAdd]
  | b0 :: b, x0 :: x, y0 :: y => by
    simp only [matAdd, List.zipWith_cons_cons, List.cons.injEq]
    exact ⟨zipWith_add_right_comm b0 x0 y0, matAdd_right_comm b x y⟩

/-- The pooled within-cluster scatter matrix is invariant under
relabeling: the per-cluster scatter matrices are permuted and matrix
addition is commutative. -/
theorem wgMatrix_relabel (data : Mat) {labels : List ℕ} {K : ℕ} {π : ℕ → ℕ}
    (hK : 0 < K) (hcont : labels.toFinset = Finset.range K)
    (hmap : ∀ i ∈ Finset.range K, π i ∈ Finset.range K)
    (hinj : ∀ i ∈ Finset.range K, ∀ j ∈ Finset.range K, π i = π j → i = j) :
    wgMatrix data (labels.map π) = wgMatrix data labels := by
  unfold wgMatrix
  rw [numClusterMax_map_relabel hK hcont hmap hinj,
    numClusterMax_of_contiguous hK hcont]
  haveI : RightCommutative matAdd := ⟨matAdd_right_comm⟩
  rw [← List.foldl_map (fun i => scatter (data.getD 0 []).length
      (colCenter (data.getD 0 []).length
        (selectRows data (clusterIndices (labels.map π) i)))) matAdd,
    ← List.foldl_map (fun i => scatter (data.getD 0 []).length
      (colCenter (data.getD 0 []).length
        (selectRows data (clusterIndices labels i)))) matAdd]
  exact List.Perm.foldl_eq
    (map_clusters_perm hcont hmap hinj (fun I => scatter (data.getD 0 []).length
      (colCenter (data.getD 0 []).length (selectRows data I)))) _

/-- `det_ratio` (score and post-call data matrix) is invariant under
relabeling. -/
theorem det_ratio_relabel (data : Mat) {labels : List ℕ} {K : ℕ} {π : ℕ → ℕ}
    (hK : 0 < K) (hcont : labels.toFinset = Finset.range K)
    (hmap : ∀ i ∈ Finset.range K, π i ∈ Finset.range K)
    (hinj : ∀ i ∈ Finset.range K, ∀ j ∈ Finset.range K, π i = π j → i = j) :
    det_ratio data (labels.map π) = det_ratio data labels := by
  unfold det_ratio
  rw [wgMatrix_relabel data hK hcont hmap hinj]

/-- `ksq_detw_index` is invariant under relabeling. -/
theorem ksq_detw_index_relabel (data : Mat) {labels : List ℕ} {K : ℕ} {π : ℕ → ℕ}
    (hK : 0 < K) (hcont : labels.toFinset = Finset.range K)
    (hmap : ∀ i ∈ Finset.range K, π i ∈ Finset.range K)
    (hinj : ∀ i ∈ Finset.range K, ∀ j ∈ Finset.range K, π i = π j → i = j) :
    ksq_detw_index data (labels.map π) = ksq_detw_index data labels := by
  unfold ksq_detw_index
  rw [wgMatrix_relabel data hK hcont hmap hinj,
    numClusterMax_map_relabel hK hcont hmap hinj,
    numClusterMax_of_contiguous hK hcont]

/-- `log_det_ratio` is invariant under relabeling. -/
theorem log_det_ratio_relabel (data : Mat) {labels : List ℕ} {K : ℕ} {π : ℕ → ℕ}
    (hK : 0 < K) (hcont : labels.toFinset = Finset.range K)
    (hmap : ∀ i ∈ Finset.range K, π i ∈ Finset.range K)
    (hinj : ∀ i ∈ Finset.range K, ∀ j ∈ Finset.range K, π i = π j → i = j) :
    log_det_ratio data (labels.map π) = log_det_ratio data labels := by
  unfold log_det_ratio
  rw [det_ratio_relabel data hK hcont hmap hinj, List.length_map]

/-- `g_plus_index` is invariant under relabeling. -/
theorem g_plus_index_relabel (data : Mat) {labels : List ℕ} {K : ℕ} {π : ℕ → ℕ}
    (hcont : labels.toFinset = Finset.range K)
    (hinj : ∀ i ∈ Finset.range K, ∀ j ∈ Finset.range K, π i = π j → i = j) :
    g_plus_index data (labels.map π) = g_plus_index data labels := by
  have hsub : ∀ x ∈ labels, x < K := by
    intro x hx
    have hm := List.mem_toFinset.2 hx
    rw [hcont, Finset.mem_range] at hm
    exact hm
  unfold g_plus_index
  rw [BHGsminus_congr (vecB_relabel_pointwise hsub hinj)]

/-- `log_ss_ratio` is invariant under relabeling. -/
theorem log_ss_ratio_relabel (data : Mat) {labels : List ℕ} {K : ℕ} {π : ℕ → ℕ}
    (hK : 0 < K) (hcont : labels.toFinset = Finset.range K)
    (hmap : ∀ i ∈ Finset.range K, π i ∈ Finset.range K)
    (hinj : ∀ i ∈ Finset.range K, ∀ j ∈ Finset.range K, π i = π j → i = j) :
    log_ss_ratio data (labels.map π) = log_ss_ratio data labels := by
  have hb : lssBgss data (labels.map π) = lssBgss data labels := by
    unfold lssBgss
    rw [numClusterMax_map_relabel hK hcont hmap hinj,
      numClusterMax_of_contiguous hK hcont,
      range_foldl_add_eq_sum, range_foldl_add_eq_sum]
    exact sum_clusters_relabel hcont hmap hinj
      (fun I => (I.length : ℝ) *
        euclidean (mean0 (selectRows data I)) (mean0 data) ^ 2)
  have hw : lssWgss data (labels.map π) = lssWgss data labels := by
    unfold lssWgss
    rw [numClusterMax_map_relabel hK hcont hmap hinj,
      numClusterMax_of_contiguous hK hcont,
      range_foldl_add_eq_sum, range_foldl_add_eq_sum]
    exact sum_clusters_relabel hcont hmap hinj
      (fun I => (selectRows data I).foldl
        (fun t member => t + euclidean member (mean0 (selectRows data I)) ^ 2) 0)
  unfold log_ss_ratio
  rw [hb, hw]

/-- `PBM_index` is invariant under relabeling. -/
theorem PBM_index_relabel (data : Mat) {labels : List ℕ} {K : ℕ} {π : ℕ → ℕ}
    (hK : 0 < K) (hcont : labels.toFinset = Finset.range K)
    (hmap : ∀ i ∈ Finset.range K, π i ∈ Finset.range K)
    (hinj : ∀ i ∈ Finset.range K, ∀ j ∈ Finset.range K, π i = π j → i = j) :
    PBM_index data (labels.map π) = PBM_index data labels := by
  have hew : pbmEw data (labels.map π) = pbmEw data labels := by
    unfold pbmEw
    rw [numClusterMax_map_relabel hK hcont hmap hinj,
      numClusterMax_of_contiguous hK hcont,
      range_foldl_add_eq_sum, range_foldl_add_eq_sum]
    exact sum_clusters_relabel hcont hmap hinj
      (fun I => (selectRows data I).foldl
        (fun t member => t + euclidean member (mean0 (selectRows data I))) 0)
  have het : pbmEt data (labels.map π) = pbmEt data labels := by
    unfold pbmEt
    rw [numClusterMax_map_relabel hK hcont hmap hinj,
      numClusterMax_of_contiguous hK hcont,
      range_foldl_add_eq_sum, range_foldl_add_eq_sum]
    exact sum_clusters_relabel hcont hmap hinj
      (fun I => (selectRows data I).foldl
        (fun t member => t + euclidean member (mean0 data)) 0)
  have hdb : pythonMax (pbmCenterDis data (labels.map π)) =
      pythonMax (pbmCenterDis data labels) := by
    apply pythonMax_perm
    · unfold pbmCenterDis
      rw [numClusterMax_map_relabel hK hcont hmap hinj,
        numClusterMax_of_contiguous hK hcont]
      exact map_clusters_perm hcont hmap hinj
        (fun I => euclidean (mean0 data) (mean0 (selectRows data I)))
    · unfold pbmCenterDis
      rw [numClusterMax_map_relabel hK hcont hmap hinj]
      simp only [ne_eq, List.map_eq_nil_iff, List.range_eq_nil]
      omega
  unfold PBM_index
  rw [hew, het, hdb, numClusterMax_map_relabel hK hcont hmap hinj,
    numClusterMax_of_contiguous hK hcont]

/-- `Ratkowsky_Lance` is invariant under relabeling. -/
theorem Ratkowsky_Lance_relabel (data : Mat) {labels : List ℕ} {K : ℕ} {π : ℕ → ℕ}
    (hK : 0 < K) (hcont : labels.toFinset = Finset.range K)
    (hmap : ∀ i ∈ Finset.range K, π i ∈ Finset.range K)
    (hinj : ∀ i ∈ Finset.range K, ∀ j ∈ Finset.range K, π i = π j → i = j) :
    Ratkowsky_Lance data (labels.map π) = Ratkowsky_Lance data labels := by
  have hb : ∀ cc, rlBgss data (labels.map π) cc = rlBgss data labels cc := by
    intro cc
    unfold rlBgss
    rw [numClusterMax_map_relabel hK hcont hmap hinj,
      numClusterMax_of_contiguous hK hcont,
      range_foldl_add_eq_sum, range_foldl_add_eq_sum]
    exact sum_clusters_relabel hcont hmap hinj
      (fun I => (I.length : ℝ) * (meanAll (selectRows data I) - cc) ^ 2)
  have hfn : (fun i => rlBgss data (labels.map π) (mean1 (column data i)) /
      rlTss (column data i) (mean1 (column data i))) =
      (fun i => rlBgss data labels (mean1 (column data i)) /
        rlTss (column data i) (mean1 (column data i))) := by
    funext i
    rw [hb]
  unfold Ratkowsky_Lance
  rw [hfn, numClusterMax_map_relabel hK hcont hmap hinj,
    numClusterMax_of_contiguous hK hcont]

/-- Characterization of the `Banfeld_Raferty` cluster loop: the running
total accumulates the non-degenerate increments, and the result slot
holds the total after the last non-degenerate cluster (or the incoming
value when every cluster is degenerate). -/
theorem banfeld_foldl_char (data : Mat) (labels : List ℕ) :
    ∀ (l : List ℕ) (c : ℝ) (v : Option ℝ),
      l.foldl (banfeldStep data labels) (c, v) =
        (c + ((l.filter (fun i => !decide (banfeldSumDis data labels i /
            ((clusterIndices labels i).length : ℝ) ≤ 0))).map
            (banfeldTerm data labels)).sum,
         if l.all (fun i => decide (banfeldSumDis data labels i /
            ((clusterIndices labels i).length : ℝ) ≤ 0)) then v
         else some (c + ((l.filter (fun i => !decide (banfeldSumDis data labels i /
            ((clusterIndices labels i).length : ℝ) ≤ 0))).map
            (banfeldTerm data labels)).sum))
  | [], c, v => by simp
  | i0 :: t, c, v => by
    rw [List.foldl_cons]
    by_cases hdeg : banfeldSumDis data labels i0 /
        ((clusterIndices labels i0).length : ℝ) ≤ 0
    · have hstep : banfeldStep data labels (c, v) i0 = (c, v) := by
        unfold banfeldStep
        rw [if_pos hdeg]
      rw [hstep, banfeld_foldl_char data labels t c v]
      simp [List.filter_cons, hdeg]
    · have hstep : banfeldStep data labels (c, v) i0 =
          (c + banfeldTerm data labels i0, some (c + banfeldTerm data labels i0)) := by
        unfold banfeldStep
        rw [if_neg hdeg]
      rw [hstep, banfeld_foldl_char data labels t
        (c + banfeldTerm data labels i0) (some (c + banfeldTerm data labels i0))]
      by_cases hall : t.all (fun i => decide (banfeldSumDis data labels i /
          ((clusterIndices labels i).length : ℝ) ≤ 0))
      · have hfil : t.filter (fun i => !decide (banfeldSumDis data labels i /
            ((clusterIndices labels i).length : ℝ) ≤ 0)) = [] := by
          rw [List.filter_eq_nil_iff]
          intro a ha
          have := List.all_eq_true.1 hall a ha
          simp only [this, Bool.not_true, Bool.false_eq_true, not_false_eq_true]
        simp [List.filter_cons, hdeg, hall, hfil]
      · simp [List.filter_cons, hdeg, hall, add_assoc]

/-- `Banfeld_Raferty` is invariant under relabeling: the set of
non-degenerate clusters is permuted and the accumulated total is a sum
over it. -/
theorem Banfeld_Raferty_relabel (data : Mat) {labels : List ℕ} {K : ℕ}
    {π : ℕ → ℕ} (hK : 0 < K) (hcont : labels.toFinset = Finset.range K)
    (hmap : ∀ i ∈ Finset.range K, π i ∈ Finset.range K)
    (hinj : ∀ i ∈ Finset.range K, ∀ j ∈ Finset.range K, π i = π j → i = j) :
    Banfeld_Raferty data (labels.map π) = Banfeld_Raferty data labels := by
  have hsub : ∀ x ∈ labels, x < K := by
    intro x hx
    have hm := List.mem_toFinset.2 hx
    rw [hcont, Finset.mem_range] at hm
    exact hm
  unfold Banfeld_Raferty
  rw [numClusterMax_map_relabel hK hcont hmap hinj,
    numClusterMax_of_contiguous hK hcont,
    banfeld_foldl_char, banfeld_foldl_char]
  have hS : (((List.range K).filter (fun i =>
      !decide (banfeldSumDis data (labels.map π) i /
        ((clusterIndices (labels.map π) i).length : ℝ) ≤ 0))).map
      (banfeldTerm data (labels.map π))).sum =
      (((List.range K).filter (fun i =>
        !decide (banfeldSumDis data labels i /
          ((clusterIndices labels i).length : ℝ) ≤ 0))).map
        (banfeldTerm data labels)).sum := by
    rw [filter_map_sum, filter_map_sum, map_range_sum_eq, map_range_sum_eq]
    exact sum_clusters_relabel hcont hmap hinj (fun I =>
      if (!decide ((selectRows data I).foldl
          (fun s member => s + euclidean member (mean0 (selectRows data I)) ^ 2) 0 /
          (I.length : ℝ) ≤ 0)) = true then
        (I.length : ℝ) * Real.log ((selectRows data I).foldl
          (fun s member => s + euclidean member (mean0 (selectRows data I)) ^ 2) 0 /
          (I.length : ℝ))
      else 0)
  have hAll : (List.range K).all (fun i =>
      decide (banfeldSumDis data (labels.map π) i /
        ((clusterIndices (labels.map π) i).length : ℝ) ≤ 0)) =
      (List.range K).all (fun i =>
        decide (banfeldSumDis data labels i /
          ((clusterIndices labels i).length : ℝ) ≤ 0)) := by
    have hpt : ∀ i ∈ Finset.range K,
        (banfeldSumDis data (labels.map π) (π i) /
          ((clusterIndices (labels.map π) (π i)).length : ℝ) ≤ 0) ↔
        (banfeldSumDis data labels i /
          ((clusterIndices labels i).length : ℝ) ≤ 0) := by
      intro i hi
      unfold banfeldSumDis
      rw [clusterIndices_map_relabel hsub hinj (Finset.mem_range.1 hi)]
    have hiff : ((List.range K).all (fun i =>
        decide (banfeldSumDis data (labels.map π) i /
          ((clusterIndices (labels.map π) i).length : ℝ) ≤ 0)) = true) ↔
        ((List.range K).all (fun i =>
          decide (banfeldSumDis data labels i /
            ((clusterIndices labels i).length : ℝ) ≤ 0)) = true) := by
      rw [List.all_eq_true, List.all_eq_true]
      have hm1 : ∀ (p : ℕ → Prop), (∀ i ∈ List.range K, p i) ↔
          (∀ i ∈ Finset.range K, p i) := by
        intro p
        constructor
        · intro h i hi
          exact h i (List.mem_range.2 (Finset.mem_range.1 hi))
        · intro h i hi
          exact h i (Finset.mem_range.2 (List.mem_range.1 hi))
      rw [hm1, hm1, ← forall_range_reindex hmap hinj (fun i =>
        decide (banfeldSumDis data (labels.map π) i /
          ((clusterIndices (labels.map π) i).length : ℝ) ≤ 0) = true)]
      apply forall_congr'
      intro i
      by_cases hi : i ∈ Finset.range K
      · simp only [hi, forall_true_left]
        rw [decide_eq_true_eq, decide_eq_true_eq]
        exact hpt i hi
      · simp [hi]
    cases hb : (List.range K).all (fun i =>
        decide (banfeldSumDis data labels i /
          ((clusterIndices labels i).length : ℝ) ≤ 0))
    · rw [← Bool.not_eq_true]
      intro hcontra
      rw [hiff, hb] at hcontra
      exact Bool.false_ne_true hcontra
    · exact hiff.2 hb
  simp only [hS, hAll]

/-- C5: every validation metric implemented in `src/validation.py` is
invariant under a global relabeling of the clusters: for contiguous
labels `0..K-1` and a permutation `π` of `0..K-1`, relabeling leaves the
returned score (and, for the scatter metrics, the post-call data matrix)
of all thirteen first-principles metrics unchanged.  The fourteenth
metric, `silhouette`, delegates to `sklearn.metrics.silhouette_score`
outside this repository. -/
theorem C5_relabel_invariance (data : Mat) (labels : List ℕ) (K : ℕ)
    (π : ℕ → ℕ) (hK : 0 < K) (hcont : labels.toFinset = Finset.range K)
    (hmap : ∀ i ∈ Finset.range K, π i ∈ Finset.range K)
    (hinj : ∀ i ∈ Finset.range K, ∀ j ∈ Finset.range K, π i = π j → i = j) :
    Ball_Hall data (labels.map π) = Ball_Hall data labels ∧
    Banfeld_Raferty data (labels.map π) = Banfeld_Raferty data labels ∧
    Baker_Hubert_Gamma data (labels.map π) = Baker_Hubert_Gamma data labels ∧
    c_index data (labels.map π) = c_index data labels ∧
    det_ratio data (labels.map π) = det_ratio data labels ∧
    g_plus_index data (labels.map π) = g_plus_index data labels ∧
    ksq_detw_index data (labels.map π) = ksq_detw_index data labels ∧
    log_det_ratio data (labels.map π) = log_det_ratio data labels ∧
    log_ss_ratio data (labels.map π) = log_ss_ratio data labels ∧
    McClain_Rao data (labels.map π) = McClain_Rao data labels ∧
    PBM_index data (labels.map π) = PBM_index data labels ∧
    point_biserial data (labels.map π) = point_biserial data labels ∧
    Ratkowsky_Lance data (labels.map π) = Ratkowsky_Lance data labels := by
  have hsub : ∀ x ∈ labels, x < K := by
    intro x hx
    have hm := List.mem_toFinset.2 hx
    rw [hcont, Finset.mem_range] at hm
    exact hm
  exact ⟨Ball_Hall_relabel data hK hcont hmap hinj,
    Banfeld_Raferty_relabel data hK hcont hmap hinj,
    BHG_relabel data hsub hinj,
    c_index_relabel data hK hcont hmap hinj,
    det_ratio_relabel data hK hcont hmap hinj,
    g_plus_index_relabel data hcont hinj,
    ksq_detw_index_relabel data hK hcont hmap hinj,
    log_det_ratio_relabel data hK hcont hmap hinj,
    log_ss_ratio_relabel data hK hcont hmap hinj,
    McClain_Rao_relabel data hK hcont hmap hinj,
    PBM_index_relabel data hK hcont hmap hinj,
    point_biserial_relabel data hK hcont hmap hinj,
    Ratkowsky_Lance_relabel data hK hcont hmap hinj⟩

/-- Witness for C5: three one-dimensional points in two clusters, with the
swap permutation of the two cluster ids. -/
theorem C5_relabel_invariance_witness :
    Ball_Hall [[0], [1], [5]] (([0, 1, 0] : List ℕ).map (fun n => 1 - n)) =
      Ball_Hall [[0], [1], [5]] [0, 1, 0] ∧
    Banfeld_Raferty [[0], [1], [5]] (([0, 1, 0] : List ℕ).map (fun n => 1 - n)) =
      Banfeld_Raferty [[0], [1], [5]] [0, 1, 0] ∧
    Baker_Hubert_Gamma [[0], [1], [5]] (([0, 1, 0] : List ℕ).map (fun n => 1 - n)) =
      Baker_Hubert_Gamma [[0], [1], [5]] [0, 1, 0] ∧
    c_index [[0], [1], [5]] (([0, 1, 0] : List ℕ).map (fun n => 1 - n)) =
      c_index [[0], [1], [5]] [0, 1, 0] ∧
    det_ratio [[0], [1], [5]] (([0, 1, 0] : List ℕ).map (fun n => 1 - n)) =
      det_ratio [[0], [1], [5]] [0, 1, 0] ∧
    g_plus_index [[0], [1], [5]] (([0, 1, 0] : List ℕ).map (fun n => 1 - n)) =
      g_plus_index [[0], [1], [5]] [0, 1, 0] ∧
    ksq_detw_index [[0], [1], [5]] (([0, 1, 0] : List ℕ).map (fun n => 1 - n)) =
      ksq_detw_index [[0], [1], [5]] [0, 1, 0] ∧
    log_det_ratio [[0], [1], [5]] (([0, 1, 0] : List ℕ).map (fun n => 1 - n)) =
      log_det_ratio [[0], [1], [5]] [0, 1, 0] ∧
    log_ss_ratio [[0], [1], [5]] (([0, 1, 0] : List ℕ).map (fun n => 1 - n)) =
      log_ss_ratio [[0], [1], [5]] [0, 1, 0] ∧
    McClain_Rao [[0], [1], [5]] (([0, 1, 0] : List ℕ).map (fun n => 1 - n)) =
      McClain_Rao [[0], [1], [5]] [0, 1, 0] ∧
    PBM_index [[0], [1], [5]] (([0, 1, 0] : List ℕ).map (fun n => 1 - n)) =
      PBM_index [[0], [1], [5]] [0, 1, 0] ∧
    point_biserial [[0], [1], [5]] (([0, 1, 0] : List ℕ).map (fun n => 1 - n)) =
      point_biserial [[0], [1], [5]] [0, 1, 0] ∧
    Ratkowsky_Lance [[0], [1], [5]] (([0, 1, 0] : List ℕ).map (fun n => 1 - n)) =
      Ratkowsky_Lance [[0], [1], [5]] [0, 1, 0] :=
  C5_relabel_invariance [[0], [1], [5]] [0, 1, 0] 2 (fun n => 1 - n)
    (by decide) (by decide) (by decide) (by decide)

end

end OpenEnsembles
